import Mathlib

/-!
Verification development for the `custom-type-enforcement` repository.

The TypeScript sources are shallowly embedded as executable Lean functions.
Lines of source files are represented as `List Char`; file paths as `String`.
JavaScript regular expressions are hand-compiled into deterministic matcher
functions (the compiled character classes are disjoint, so greedy matching
coincides with the backtracking semantics; deviations are noted locally).
JS `\s` also accepts a few exotic Unicode blanks and `String.prototype.sort`
compares UTF-16 code units; the embedding uses `Char.isWhitespace` and
code-point order, which agree on all inputs considered here.
-/

namespace CTE

/-! ## Character classes and low-level string utilities -/

/-- JS `\s` (restricted to the ASCII blanks that occur in the sources). -/
def jsWS (c : Char) : Bool := c.isWhitespace

/-- JS `\w`, i.e. `[A-Za-z0-9_]`. -/
def wordChar (c : Char) : Bool := c.isAlpha || c.isDigit || c == '_'

/-- JS identifier start class `[a-zA-Z_$]`. -/
def identStart (c : Char) : Bool := c.isAlpha || c == '_' || c == '$'

/-- JS identifier continuation class `[\w$]`. -/
def identChar (c : Char) : Bool := wordChar c || c == '$'

/-- Does `pat` occur as a prefix of `text`? (JS `String.prototype.startsWith`.) -/
def startsWithChars : List Char → List Char → Bool
  | [], _ => true
  | _ :: _, [] => false
  | p :: ps, c :: cs => p == c && startsWithChars ps cs

/-- Does `pat` occur as a contiguous substring of `text`?
(JS `String.prototype.includes`.) -/
def hasSubChars : List Char → List Char → Bool
  | [], pat => pat.isEmpty
  | text@(_ :: rest), pat => startsWithChars pat text || hasSubChars rest pat

/-- Does `text` end with `pat`? (JS `String.prototype.endsWith`.) -/
def endsWithChars (text pat : List Char) : Bool :=
  startsWithChars pat.reverse text.reverse

/-- JS `String.prototype.trim` (both ends). -/
def jsTrim (cs : List Char) : List Char :=
  ((cs.dropWhile jsWS).reverse.dropWhile jsWS).reverse

/-- JS `String.prototype.trimEnd`. -/
def jsTrimEnd (cs : List Char) : List Char :=
  (cs.reverse.dropWhile jsWS).reverse

/-! ## Matcher combinators

Each combinator consumes from the front of a character list and returns the
rest, mirroring a left-to-right regex engine.  Every combinator returns a
suffix of its input, which the negative-matching lemmas below rely on. -/

/-- Consume the literal `pat`, or fail. -/
def eatLit : List Char → List Char → Option (List Char)
  | [], cs => some cs
  | _ :: _, [] => none
  | p :: ps, c :: cs => if p == c then eatLit ps cs else none

/-- Consume `\s*`. -/
def eatWS (cs : List Char) : List Char := cs.dropWhile jsWS

/-- Consume `\s+`, or fail. -/
def eatWS1 : List Char → Option (List Char)
  | c :: rest => if jsWS c then some (rest.dropWhile jsWS) else none
  | [] => none

/-- Consume `\w+`, or fail. -/
def eatWord1 : List Char → Option (List Char)
  | c :: rest => if wordChar c then some (rest.dropWhile wordChar) else none
  | [] => none

/-- Run an at-position matcher at every start position, as an unanchored JS
regex `test` does.  True iff the matcher accepts at some suffix. -/
def scanSuffixes (f : List Char → Bool) : List Char → Bool
  | [] => f []
  | c :: cs => f (c :: cs) || scanSuffixes f cs

/-- Run an at-position parser at every start position left to right and return
the first (leftmost) result, as JS `RegExp.prototype.exec` does. -/
def scanSuffixesFirst {α : Type} (f : List Char → Option α) : List Char → Option α
  | [] => f []
  | c :: cs =>
    match f (c :: cs) with
    | some a => some a
    | none => scanSuffixesFirst f cs

/-! ## Structural duplicate detector: data model

Mirrors the `TypeDefinition` / `FieldDefinition` / `DuplicateMatch` interfaces
of the type-duplicates check. -/

structure FieldDefinition where
  name : String
  type : String
  optional : Bool
deriving DecidableEq, Repr

structure TypeDefinition where
  name : String
  filePath : String
  line : Nat
  fields : List FieldDefinition
deriving DecidableEq, Repr

inductive MatchType where
  | exact
  | optionalVariance
  | subset
  | superset
  | requiredOpportunity
deriving DecidableEq, Repr

structure DuplicateMatch where
  type1 : TypeDefinition
  type2 : TypeDefinition
  matchType : MatchType
  suggestion : String
deriving DecidableEq, Repr

/-! ## Structural duplicate detector: comparison phase -/

/-- The signature string `` `${f.name}${f.optional ? '?' : ''}:${f.type}` ``. -/
def fieldSig (f : FieldDefinition) : String :=
  f.name ++ (if f.optional then "?" else "") ++ ":" ++ f.type

/-- Lexicographic comparison of character lists by code point (the JS default
sort comparator works on UTF-16 code units; the two agree on the ASCII data
handled here). -/
def lexLe : List Char → List Char → Bool
  | [], _ => true
  | _ :: _, [] => false
  | a :: as, b :: bs =>
    a.toNat < b.toNat || (a == b && lexLe as bs)

def strLe (a b : String) : Bool := lexLe a.data b.data

/-- Insert into a sorted list of strings. -/
def insertSorted (s : String) : List String → List String
  | [] => [s]
  | t :: ts => if strLe s t then s :: t :: ts else t :: insertSorted s ts

/-- Sort strings ascending (JS `Array.prototype.sort` with default comparator;
the sorted sequence is unique, so the algorithm used does not matter). -/
def sortStrings : List String → List String
  | [] => []
  | s :: ss => insertSorted s (sortStrings ss)

/-- `fields.map(sig).sort().join('|')` from `areFieldsExactMatch`. -/
def joinedSig (fields : List FieldDefinition) : String :=
  String.intercalate "|" (sortStrings (fields.map fieldSig))

/-- `areFieldsExactMatch` from the type-duplicates check. -/
def areFieldsExactMatch (fields1 fields2 : List FieldDefinition) : Bool :=
  fields1.length == fields2.length && joinedSig fields1 == joinedSig fields2

/-- The fixed optional-variance suggestion message. -/
def optionalVarianceMessage : String :=
  "Types have the same required fields but different optional fields. Consider using a base type with Partial<T> or optional field composition."

/-- `checkOptionalVariance` from the type-duplicates check. -/
def checkOptionalVariance (fields1 fields2 : List FieldDefinition) :
    Option String :=
  let required1 := fields1.filter (fun f => !f.optional)
  let required2 := fields2.filter (fun f => !f.optional)
  if required1.length == 0 && required2.length == 0 then none
  else if !areFieldsExactMatch required1 required2 then none
  else
    let optional1 := fields1.filter (fun f => f.optional)
    let optional2 := fields2.filter (fun f => f.optional)
    if optional1.length == 0 && optional2.length == 0 then none
    else if optional1.length != optional2.length then
      some optionalVarianceMessage
    else none

/-- JS `new Map(fields.map(f => [f.name, f]))`: later entries overwrite the
value at an existing key but keep its original position. -/
def mapInsert (k : String) (v : FieldDefinition) :
    List (String × FieldDefinition) → List (String × FieldDefinition)
  | [] => [(k, v)]
  | (k', v') :: rest =>
    if k' == k then (k', v) :: rest else (k', v') :: mapInsert k v rest

def buildFieldMap (fields : List FieldDefinition) :
    List (String × FieldDefinition) :=
  fields.foldl (fun m f => mapInsert f.name f m) []

/-- JS `Map.prototype.get`. -/
def mapGet (m : List (String × FieldDefinition)) (k : String) :
    Option FieldDefinition :=
  (m.find? (fun p => p.1 == k)).map (·.2)

/-- JS `Map.prototype.has`. -/
def mapHas (m : List (String × FieldDefinition)) (k : String) : Bool :=
  (m.find? (fun p => p.1 == k)).isSome

/-- JS `Array.from(map.values())`. -/
def mapValues (m : List (String × FieldDefinition)) : List FieldDefinition :=
  m.map (·.2)

/-- The subset suggestion string
`` Type '${small}' is a subset of '${big}'. Consider using: type ${small} = Omit<${big}, '${omitted}'>  ``. -/
def subsetSuggestion (small big omitted : String) : String :=
  "Type \x27" ++ small ++ "\x27 is a subset of \x27" ++ big ++
    "\x27. Consider using: type " ++ small ++ " = Omit<" ++ big ++
    ", \x27" ++ omitted ++ "\x27>"

/-- `checkSubsetRelationship` from the type-duplicates check. -/
def checkSubsetRelationship (type1 type2 : TypeDefinition)
    (fieldMap1 fieldMap2 : List (String × FieldDefinition)) :
    Option DuplicateMatch :=
  let fields1 := mapValues fieldMap1
  let fields2 := mapValues fieldMap2
  let type1IsSubset := fields1.all fun f1 =>
    match mapGet fieldMap2 f1.name with
    | some f2 => f2.type == f1.type && f2.optional == f1.optional
    | none => false
  if type1IsSubset && fields1.length < fields2.length then
    let omittedFields := String.intercalate ", "
      ((fields2.filter (fun f2 => !mapHas fieldMap1 f2.name)).map (·.name))
    some { type1, type2, matchType := .subset,
           suggestion := subsetSuggestion type1.name type2.name omittedFields }
  else
    let type2IsSubset := fields2.all fun f2 =>
      match mapGet fieldMap1 f2.name with
      | some f1 => f1.type == f2.type && f1.optional == f2.optional
      | none => false
    if type2IsSubset && fields2.length < fields1.length then
      let omittedFields := String.intercalate ", "
        ((fields1.filter (fun f1 => !mapHas fieldMap2 f1.name)).map (·.name))
      some { type1 := type2, type2 := type1, matchType := .superset,
             suggestion := subsetSuggestion type2.name type1.name omittedFields }
    else none

/-- The required-opportunity suggestion string. -/
def requiredSuggestion (allReq hasOpt : String) : String :=
  "Type \x27" ++ allReq ++ "\x27 has all required fields while \x27" ++
    hasOpt ++ "\x27 has optional fields. Consider using: type " ++ allReq ++
    " = Required<" ++ hasOpt ++ ">"

/-- `checkRequiredOpportunity` from the type-duplicates check. -/
def checkRequiredOpportunity (type1 type2 : TypeDefinition)
    (fields1 fields2 : List FieldDefinition) : Option DuplicateMatch :=
  if fields1.length != fields2.length then none
  else
    let fieldMap2 := buildFieldMap fields2
    let namesAndTypesMatch := fields1.all fun f1 =>
      match mapGet fieldMap2 f1.name with
      | some f2 => f2.type == f1.type
      | none => false
    if !namesAndTypesMatch then none
    else
      let allRequired1 := fields1.all (fun f => !f.optional)
      let allRequired2 := fields2.all (fun f => !f.optional)
      let hasOptional1 := fields1.any (fun f => f.optional)
      let hasOptional2 := fields2.any (fun f => f.optional)
      if allRequired1 && hasOptional2 then
        some { type1, type2, matchType := .requiredOpportunity,
               suggestion := requiredSuggestion type1.name type2.name }
      else if allRequired2 && hasOptional1 then
        some { type1 := type2, type2 := type1,
               matchType := .requiredOpportunity,
               suggestion := requiredSuggestion type2.name type1.name }
      else none

/-- The exact-duplicate suggestion string. -/
def exactSuggestion (n1 n2 : String) : String :=
  "Types \x27" ++ n1 ++ "\x27 and \x27" ++ n2 ++
    "\x27 are structurally identical. Consider consolidating into a single type."

/-- `compareTypes` from the type-duplicates check: priority-ordered
classification of one pair. -/
def compareTypes (type1 type2 : TypeDefinition) : Option DuplicateMatch :=
  if type1.filePath == type2.filePath then none
  else
    let fields1 := type1.fields
    let fields2 := type2.fields
    let fieldMap1 := buildFieldMap fields1
    let fieldMap2 := buildFieldMap fields2
    if areFieldsExactMatch fields1 fields2 then
      some { type1, type2, matchType := .exact,
             suggestion := exactSuggestion type1.name type2.name }
    else
      match checkOptionalVariance fields1 fields2 with
      | some s =>
        some { type1, type2, matchType := .optionalVariance, suggestion := s }
      | none =>
        match checkSubsetRelationship type1 type2 fieldMap1 fieldMap2 with
        | some m => some m
        | none => checkRequiredOpportunity type1 type2 fields1 fields2

/-- `[type1.filePath, type1.name, type2.filePath, type2.name].sort().join('|')`
from the pairwise comparison loop. -/
def pairKey (t1 t2 : TypeDefinition) : String :=
  String.intercalate "|"
    (sortStrings [t1.filePath, t1.name, t2.filePath, t2.name])

/-! ## Structural duplicate detector: extraction phase

`extractTypeDefinitions` matches each line against
`/(?:export\s+)?(?:type|interface)\s+(\w+)\s*[={]/`.  The optional
`export\s+` prefix never changes whether a match exists nor the captured
name (`type`/`interface` do not occur inside `export` plus blanks), so the
matcher below searches for the leftmost occurrence of the mandatory core. -/

/-- Try the core of the declaration regex at the current position:
(`type`|`interface`) `\s+` `(\w+)` `\s*` `[={]`; returns the captured name. -/
def typeDeclCoreAt (cs : List Char) : Option String :=
  let kw :=
    match eatLit "type".data cs with
    | some r => some r
    | none => eatLit "interface".data cs
  match kw with
  | none => none
  | some r =>
    match eatWS1 r with
    | none => none
    | some r2 =>
      let word := r2.takeWhile wordChar
      let r3 := r2.dropWhile wordChar
      if word.isEmpty then none
      else
        match eatWS r3 with
        | '=' :: _ => some (String.mk word)
        | '\x7b' :: _ => some (String.mk word)
        | _ => none

/-- Leftmost match of the declaration regex on a line (capture group 1). -/
def typeDeclName : List Char → Option String :=
  scanSuffixesFirst typeDeclCoreAt

/-- The `// @type-duplicate-allowed` suppression marker. -/
def duplicateAllowedMarker : List Char := "// @type-duplicate-allowed".data

/-- The field regex `/^\s*(\w+)(\?)?:\s*(.+?)(?:[;,]|$)/`, group 3:
after `:` the engine consumes `\s*` greedily; the lazy `(.+?)` then captures
the shortest non-empty run whose successor is `;`, `,` or the line end.  If
nothing follows the blanks, `\s*` backtracks one blank into the capture. -/
def lazyTypeCapture (afterColon : List Char) : Option (List Char) :=
  let w := afterColon.takeWhile jsWS
  let r := afterColon.dropWhile jsWS
  match r with
  | c :: rest => some (c :: rest.takeWhile (fun d => d != ';' && d != ','))
  | [] =>
    match w.reverse with
    | c :: _ => some [c]
    | [] => none

/-- Strip one trailing `;` or `,` (JS `replace(/[;,]$/, '')`). -/
def stripTrailingSep (cs : List Char) : List Char :=
  match cs.reverse with
  | c :: rest => if c == ';' || c == ',' then rest.reverse else cs
  | [] => cs

/-- Match one line against the field regex and build a `FieldDefinition`. -/
def matchFieldLine (line : List Char) : Option FieldDefinition :=
  let cs := line.dropWhile jsWS
  let word := cs.takeWhile wordChar
  let cs2 := cs.dropWhile wordChar
  if word.isEmpty then none
  else
    let (opt, cs3) :=
      match cs2 with
      | '?' :: r => (true, r)
      | _ => (false, cs2)
    match cs3 with
    | ':' :: afterColon =>
      match lazyTypeCapture afterColon with
      | none => none
      | some raw =>
        let t := jsTrim (stripTrailingSep (jsTrim raw))
        some { name := String.mk word, type := String.mk t, optional := opt }
    | _ => none

/-- Count the braces of one line, updating `(braceCount, foundOpenBrace)`. -/
def braceScanLine (line : List Char) (st : Int × Bool) : Int × Bool :=
  line.foldl
    (fun (st : Int × Bool) c =>
      if c == '\x7b' then (st.1 + 1, true)
      else if c == '\x7d' then (st.1 - 1, st.2)
      else st)
    st

/-- The body loop of `extractFields`, over the lines from the declaration on. -/
def extractFieldsLoop : Int → Bool → List (List Char) → List FieldDefinition
  | _, _, [] => []
  | braceCount, foundOpen, line :: rest =>
    let (bc, fo) := braceScanLine line (braceCount, foundOpen)
    let fieldHere :=
      if fo && bc > 0 then
        match matchFieldLine line with
        | some f => [f]
        | none => []
      else []
    if fo && bc == 0 then fieldHere
    else fieldHere ++ extractFieldsLoop bc fo rest

/-- `extractFields` from the type-duplicates check. -/
def extractFields (lines : List (List Char)) (startLine : Nat) :
    List FieldDefinition :=
  extractFieldsLoop 0 false (lines.drop startLine)

/-- The per-line loop of `extractTypeDefinitions`; `i` is the current index
and `allLines` the whole file (needed for `extractFields` and the next-line
brace check). -/
def extractDefsLoop (filePath : String) (allLines : List (List Char)) :
    Nat → List (List Char) → List TypeDefinition
  | _, [] => []
  | i, line :: rest =>
    let tail := extractDefsLoop filePath allLines (i + 1) rest
    if hasSubChars line duplicateAllowedMarker then tail
    else
      match typeDeclName line with
      | none => tail
      | some name =>
        let isObjectType := line.contains '\x7b' ||
          (match rest with
           | next :: _ => startsWithChars ['\x7b'] (jsTrim next)
           | [] => false)
        if !isObjectType then tail
        else
          let fields := extractFields allLines i
          if fields.length ≥ 2 then
            { name, filePath, line := i + 1, fields } :: tail
          else tail

/-- `extractTypeDefinitions` from the type-duplicates check (the file content
is given as its `'\n'`-split line list; the file-level marker check on the
joined content is equivalent to a per-line check since the marker contains no
newline). -/
def extractTypeDefinitions (filePath : String) (lines : List (List Char)) :
    List TypeDefinition :=
  if lines.any (fun l => hasSubChars l duplicateAllowedMarker) then []
  else extractDefsLoop filePath lines 0 lines

/-- All index pairs `i < j` of the list, in the order of the nested loops. -/
def allOrderedPairs {α : Type} : List α → List (α × α)
  | [] => []
  | x :: xs => xs.map (fun y => (x, y)) ++ allOrderedPairs xs

/-- The body of the nested comparison loops, carrying the `processedPairs`
set. -/
def processPairs :
    List (TypeDefinition × TypeDefinition) → List String → List DuplicateMatch
  | [], _ => []
  | (t1, t2) :: rest, processed =>
    let key := pairKey t1 t2
    if processed.contains key then processPairs rest processed
    else
      match compareTypes t1 t2 with
      | some m => m :: processPairs rest (key :: processed)
      | none => processPairs rest (key :: processed)

/-- The comparison phase of `runTypeDuplicatesCheck`: all-pairs comparison
with pair-key dedup. -/
def findDuplicateMatches (allTypes : List TypeDefinition) :
    List DuplicateMatch :=
  processPairs (allOrderedPairs allTypes) []

/-- Extraction followed by comparison, exactly as `runTypeDuplicatesCheck`
composes them: every enumerated file is scanned, with no type-module
filtering between enumeration and extraction. -/
def typeDuplicatesPipeline (files : List (String × List (List Char))) :
    List DuplicateMatch :=
  findDuplicateMatches
    ((files.map fun pr => extractTypeDefinitions pr.1 pr.2).flatten)

/-! ## Type-exports check: path predicates

`isTypesFile` first applies Node `path.normalize`; the POSIX variant is
embedded (`path.sep` is `/`). -/

/-- Segment processing of Node `path.posix.normalize` (`normalizeString`). -/
def normSegs (allowAboveRoot : Bool) : List String → List String → List String
  | acc, [] => acc.reverse
  | acc, seg :: rest =>
    if seg = "" || seg = "." then normSegs allowAboveRoot acc rest
    else if seg = ".." then
      match acc with
      | top :: acc' =>
        if top ≠ ".." then normSegs allowAboveRoot acc' rest
        else if allowAboveRoot then normSegs allowAboveRoot (".." :: top :: acc') rest
        else normSegs allowAboveRoot (top :: acc') rest
      | [] =>
        if allowAboveRoot then normSegs allowAboveRoot [".."] rest
        else normSegs allowAboveRoot [] rest
    else normSegs allowAboveRoot (seg :: acc) rest

/-- Split on `/` (JS `String.prototype.split('/')`). -/
def splitSlashChars : List Char → List (List Char)
  | [] => [[]]
  | c :: rest =>
    if c == '/' then [] :: splitSlashChars rest
    else
      match splitSlashChars rest with
      | h :: t => (c :: h) :: t
      | [] => [[c]]

/-- Node `path.posix.normalize`. -/
def posixNormalize (p : String) : String :=
  if p = "" then "."
  else
    let abs := startsWithChars ['/'] p.data
    let trail := endsWithChars p.data ['/']
    let segs := (splitSlashChars p.data).map String.mk
    let body := String.intercalate "/" (normSegs (!abs) [] segs)
    if body = "" then (if abs then "/" else if trail then "./" else ".")
    else
      let body := if trail then body ++ "/" else body
      if abs then "/" ++ body else body

/-- `isTypesFile` from the type-exports check: the normalized path ends with
`types.ts`, or contains a `/types/` directory segment. -/
def isTypesFile (filePath : String) : Bool :=
  let normalized := posixNormalize filePath
  endsWithChars normalized.data "types.ts".data ||
    hasSubChars normalized.data "/types/".data

/-- The `path.normalize(filePath).includes(path.sep + 'types' + path.sep)`
test used by `scanFileForTypeExports` for its types-directory early branch. -/
def isInTypesDir (filePath : String) : Bool :=
  hasSubChars (posixNormalize filePath).data "/types/".data

/-! ## Type-exports check: anchored line patterns -/

/-- `/^\s*export\s+type\s+\*\s+from/` (`TYPE_RE_EXPORT_PATTERN`). -/
def isTypeReExportL (line : List Char) : Bool :=
  (do
    let r ← eatLit "export".data (line.dropWhile jsWS)
    let r ← eatWS1 r
    let r ← eatLit "type".data r
    let r ← eatWS1 r
    let r ← eatLit "*".data r
    let r ← eatWS1 r
    let _ ← eatLit "from".data r
    pure ()).isSome

/-- `/^\s*export\s+<kw>\s+\w+/` for one of the `TYPE_EXPORT_PATTERNS`. -/
def typeExportKw (kw : String) (line : List Char) : Bool :=
  (do
    let r ← eatLit "export".data (line.dropWhile jsWS)
    let r ← eatWS1 r
    let r ← eatLit kw.data r
    let r ← eatWS1 r
    let _ ← eatWord1 r
    pure ()).isSome

/-- `TYPE_EXPORT_PATTERNS.some(p => p.test(line))`. -/
def hasTypeExportL (line : List Char) : Bool :=
  typeExportKw "type" line || typeExportKw "interface" line ||
    typeExportKw "enum" line

/-- `/^\s*export\s+\{\s*type\s+/` or `/^\s*export\s+type\s+\{/`
(`hasTypeExportInBraces`). -/
def hasTypeExportInBracesL (line : List Char) : Bool :=
  ((do
    let r ← eatLit "export".data (line.dropWhile jsWS)
    let r ← eatWS1 r
    let r ← eatLit "\x7b".data r
    let r2 ← eatLit "type".data (eatWS r)
    let _ ← eatWS1 r2
    pure ()).isSome) ||
  ((do
    let r ← eatLit "export".data (line.dropWhile jsWS)
    let r ← eatWS1 r
    let r ← eatLit "type".data r
    let r ← eatWS1 r
    let _ ← eatLit "\x7b".data r
    pure ()).isSome)

/-- The regex head `export\s+const\s+\w+\s*=`; returns the rest after `=`. -/
def eatConstHeadEq (cs : List Char) : Option (List Char) := do
  let r ← eatLit "export".data cs
  let r ← eatWS1 r
  let r ← eatLit "const".data r
  let r ← eatWS1 r
  let r ← eatWord1 r
  match eatWS r with
  | '=' :: rest => some rest
  | _ => none

/-- The regex head `export\s+const\s+\w+\s*[:=]`; returns the matched
separator and the rest. -/
def eatConstHeadAny (cs : List Char) : Option (Char × List Char) := do
  let r ← eatLit "export".data cs
  let r ← eatWS1 r
  let r ← eatLit "const".data r
  let r ← eatWS1 r
  let r ← eatWord1 r
  match eatWS r with
  | '=' :: rest => some ('=', rest)
  | ':' :: rest => some (':', rest)
  | _ => none

/-- `CONST_EXPORT_PATTERN` = `/^\s*export\s+const\s+(\w+)\s*[:=]/` as a
boolean (the capture is unused by the scanner). -/
def isConstExportDeclL (line : List Char) : Bool :=
  (eatConstHeadAny (line.dropWhile jsWS)).isSome

/-! ## Type-exports check: `isConstExportFunctional`

The arrow regexes `=\s*(\([^)]*\)|[^=]+)\s*=>`: branch one takes the first
`)` after `(` (the class excludes `)`), branch two succeeds exactly when the
first `=` of the rest is preceded by a non-empty `=`-free run and followed
by `>`. -/

def arrowBranchA (R : List Char) : Bool :=
  match R.dropWhile jsWS with
  | '(' :: r2 =>
    (match r2.dropWhile (· != ')') with
     | ')' :: r3 => (eatLit "=>".data (eatWS r3)).isSome
     | _ => false)
  | _ => false

def arrowBranchB (R : List Char) : Bool :=
  !(R.takeWhile (· != '=')).isEmpty &&
    (match R.dropWhile (· != '=') with
     | '=' :: '>' :: _ => true
     | _ => false)

/-- `/export\s+const\s+\w+\s*=\s*(\([^)]*\)|[^=]+)\s*=>/` at one position. -/
def funcArrowAt (cs : List Char) : Bool :=
  match eatConstHeadEq cs with
  | some R => arrowBranchA R || arrowBranchB R
  | none => false

/-- `async\s+(\([^)]*\)|[^=]+)\s*=>` applied after `=\s*`: branch two holds
exactly when the rest starts with a blank and its first `=` sits at index at
least two and is followed by `>`. -/
def asyncTail (R : List Char) : Bool :=
  match R with
  | c :: rest =>
    jsWS c &&
      (arrowBranchA rest ||
        ((c :: rest).takeWhile (· != '=')).length ≥ 2 &&
          (match (c :: rest).dropWhile (· != '=') with
           | '=' :: '>' :: _ => true
           | _ => false))
  | [] => false

/-- `/export\s+const\s+\w+\s*=\s*async\s+(\([^)]*\)|[^=]+)\s*=>/` at one
position. -/
def funcAsyncArrowAt (cs : List Char) : Bool :=
  match eatConstHeadEq cs with
  | some R =>
    (match eatLit "async".data (eatWS R) with
     | some r => asyncTail r
     | none => false)
  | none => false

/-- `/export\s+const\s+\w+\s*=\s*function/` at one position. -/
def funcFunctionAt (cs : List Char) : Bool :=
  match eatConstHeadEq cs with
  | some R => (eatLit "function".data (eatWS R)).isSome
  | none => false

/-- `/export\s+const\s+\w+\s*=\s*class/` at one position. -/
def funcClassAt (cs : List Char) : Bool :=
  match eatConstHeadEq cs with
  | some R => (eatLit "class".data (eatWS R)).isSome
  | none => false

/-- `/export\s+const\s+\w+\s*=\s*\(/` at one position. -/
def multiLineParenAt (cs : List Char) : Bool :=
  match eatConstHeadEq cs with
  | some R =>
    (match eatWS R with
     | '(' :: _ => true
     | _ => false)
  | none => false

/-- The ten-line lookahead for a multi-line arrow function: stop at a line
containing `;` or the substring `export`. -/
def arrowLookahead10 : Nat → List (List Char) → Bool
  | 0, _ => false
  | _, [] => false
  | Nat.succ n, l :: rest =>
    if hasSubChars l "=>".data then true
    else if l.contains ';' || hasSubChars l "export".data then false
    else arrowLookahead10 n rest

/-- `isConstExportFunctional` from the type-exports check. -/
def isConstExportFunctional (line : List Char)
    (nextLines : List (List Char)) : Bool :=
  scanSuffixes funcArrowAt line ||
  scanSuffixes funcFunctionAt line ||
  scanSuffixes funcClassAt line ||
  scanSuffixes funcAsyncArrowAt line ||
  (scanSuffixes multiLineParenAt line && arrowLookahead10 10 nextLines)

/-! ## Type-exports check: schema (TypeBox/Zod) classifier -/

/-- `Type\.\w+\s*\(` at one position. -/
def typeCallAt (cs : List Char) : Bool :=
  match eatLit "Type.".data cs with
  | some r =>
    (match eatWord1 r with
     | some r2 =>
       (match eatWS r2 with
        | '(' :: _ => true
        | _ => false)
     | none => false)
  | none => false

/-- `z\.\w+\s*\(` at one position. -/
def zCallAt (cs : List Char) : Bool :=
  match eatLit "z.".data cs with
  | some r =>
    (match eatWord1 r with
     | some r2 =>
       (match eatWS r2 with
        | '(' :: _ => true
        | _ => false)
     | none => false)
  | none => false

/-- `SCHEMA_LIBRARY_PATTERNS.some(p => p.test(l))`:
`/=\s*Type\.\w+\s*\(/` or `/=\s*z\.\w+\s*\(/`. -/
def schemaLibTest (l : List Char) : Bool :=
  scanSuffixes
    (fun cs =>
      match cs with
      | '=' :: r => typeCallAt (r.dropWhile jsWS) || zCallAt (r.dropWhile jsWS)
      | _ => false)
    l

/-- `SCHEMA_INITIALIZER_PATTERNS.some(p => p.test(l))`:
`/^\s*Type\.\w+\s*\(/` or `/^\s*z\.\w+\s*\(/`. -/
def schemaInitTest (l : List Char) : Bool :=
  typeCallAt (l.dropWhile jsWS) || zCallAt (l.dropWhile jsWS)

/-- The five-line schema lookahead: stop at a line with a `;` but no brace,
or at a line starting a new export. -/
def isExportLineStart (l : List Char) : Bool :=
  match eatLit "export".data (l.dropWhile jsWS) with
  | some (c :: _) => jsWS c
  | _ => false

def schemaLookahead : Nat → List (List Char) → Bool
  | 0, _ => false
  | _, [] => false
  | Nat.succ n, l :: rest =>
    if schemaLibTest l then true
    else if schemaInitTest l then true
    else if l.contains ';' && !l.contains '\x7b' then false
    else if isExportLineStart l then false
    else schemaLookahead n rest

/-- `isSchemaConstExport` from the type-exports check. -/
def isSchemaConstExport (line : List Char)
    (nextLines : List (List Char)) : Bool :=
  if schemaLibTest line then true
  else if scanSuffixes (fun cs => (eatConstHeadAny cs).isSome) line then
    schemaLookahead 5 nextLines
  else false

/-! ## Type-exports check: `isRuntimeConstExport` -/

/-- `\bnew\s+[A-Z]` at one position (the preceding character is passed for
the word boundary). -/
def newCoreAt (cs : List Char) : Bool :=
  match eatLit "new".data cs with
  | some (c :: r2) =>
    jsWS c &&
      (match r2.dropWhile jsWS with
       | u :: _ => u.isUpper
       | [] => false)
  | _ => false

/-- Scan for `\bnew\s+[A-Z]` anywhere, tracking the previous character. -/
def newScan (prev : Char) : List Char → Bool
  | [] => false
  | c :: rest => (!wordChar prev && newCoreAt (c :: rest)) || newScan c rest

/-- `/export\s+const\s+\w+\s*[:=].*\bnew\s+[A-Z]/` at one position. -/
def newExprAt (cs : List Char) : Bool :=
  match eatConstHeadAny cs with
  | some (sep, rest) => newScan sep rest
  | none => false

/-- Greedy continuation of a dotted identifier chain
`[\w$]*(\.[a-zA-Z_$][\w$]*)*`, returning the consumed characters and the
rest.  (In every use the chain is followed by `\s*\(`, so declining a chain
extension could never rescue a failed match: greedy matching is faithful.) -/
def dottedRun : List Char → List Char × List Char
  | [] => ([], [])
  | c :: rest =>
    if identChar c then
      (c :: (dottedRun rest).1, (dottedRun rest).2)
    else if c == '.' then
      match rest with
      | d :: rest2 =>
        if identStart d then
          ('.' :: d :: (dottedRun rest2).1, (dottedRun rest2).2)
        else ([], c :: rest)
      | [] => ([], [c])
    else ([], c :: rest)

/-- Parse `[a-zA-Z_$][\w$]*(\.[a-zA-Z_$][\w$]*)*` greedily, returning the
consumed characters and the rest. -/
def parseDotted (cs : List Char) : Option (List Char × List Char) :=
  match cs with
  | c :: rest =>
    if identStart c then
      some (c :: (dottedRun rest).1, (dottedRun rest).2)
    else none
  | [] => none

/-- `/export\s+const\s+\w+\s*[:=]\s*([a-zA-Z_$][\w$]*(?:\.[a-zA-Z_$][\w$]*)*)\s*\(/`
at one position; returns the capture. -/
def funcCallCapAt (cs : List Char) : Option (List Char) :=
  match eatConstHeadAny cs with
  | some (_, rest) =>
    (match parseDotted (rest.dropWhile jsWS) with
     | some (cap, r) =>
       (match r.dropWhile jsWS with
        | '(' :: _ => some cap
        | _ => none)
     | none => none)
  | none => none

/-- The leftmost `exec` of the function-call initializer regex. -/
def funcCallCapture (line : List Char) : Option (List Char) :=
  scanSuffixesFirst funcCallCapAt line

def literalConstructors : List String :=
  ["String", "Number", "Boolean", "Array", "Object"]

/-- The five-line arrow lookahead of the call branch: stop at a line with a
`;` or one matching `/^\s*export\s/`. -/
def arrowLookahead5 : Nat → List (List Char) → Bool
  | 0, _ => false
  | _, [] => false
  | Nat.succ n, l :: rest =>
    if hasSubChars l "=>".data then true
    else if l.contains ';' || isExportLineStart l then false
    else arrowLookahead5 n rest

/-- `/export\s+const\s+\w+\s*[:=]\s*<delim>/` at one position, for the
object (`{`) and array (`[`) literal initializer tests. -/
def literalInitAt (delim : Char) (cs : List Char) : Bool :=
  match eatConstHeadAny cs with
  | some (_, rest) =>
    (match rest.dropWhile jsWS with
     | c :: _ => c == delim
     | [] => false)
  | none => false

/-- `[line, ...nextLines.slice(0, 20)].join('\n')`. -/
def joinLines : List (List Char) → List Char
  | [] => []
  | [l] => l
  | l :: rest => l ++ '\n' :: joinLines rest

def gatherContent (line : List Char) (nextLines : List (List Char)) :
    List Char :=
  joinLines (line :: nextLines.take 20)

/-- `[a-zA-Z_$][\w$]*\.[a-zA-Z_$][\w$]*` at one position (pattern 1 guard). -/
def dotIdentAt : List Char → Bool
  | c :: rest =>
    identStart c &&
      (match rest.dropWhile identChar with
       | '.' :: d :: _ => identStart d
       | _ => false)
  | [] => false

/-- `[\s,}\]]`: the terminator class of patterns 1 and 2. -/
def valueEndChar (c : Char) : Bool :=
  jsWS c || c == ',' || c == '\x7d' || c == ']'

/-- After one chain identifier: consume `[\w$]*`, then accept a terminator
from `[\s,}\]]` or a further `\.[a-zA-Z_$]` group.  (The terminator class
and `.` are disjoint, so no backtracking over the group count is needed.) -/
def dottedAfterIdent : List Char → Bool
  | [] => false
  | c :: rest =>
    if identChar c then dottedAfterIdent rest
    else if valueEndChar c then true
    else if c == '.' then
      match rest with
      | d :: rest2 => identStart d && dottedAfterIdent rest2
      | [] => false
    else false

/-- `(\.[a-zA-Z_$][\w$]*)+` followed by `[\s,}\]]`. -/
def dottedMore : List Char → Bool
  | '.' :: c :: rest => identStart c && dottedAfterIdent rest
  | _ => false

/-- `/:\s*[a-zA-Z_$][\w$]*(?:\.[a-zA-Z_$][\w$]*)+[\s,}\]]/` at one position
(pattern 1: dotted property access in value position). -/
def dottedValueAt : List Char → Bool
  | ':' :: r =>
    (match r.dropWhile jsWS with
     | c :: rest => identStart c && dottedMore (rest.dropWhile identChar)
     | [] => false)
  | _ => false

/-- `[A-Z0-9_]`. -/
def upperChar (c : Char) : Bool := c.isUpper || c.isDigit || c == '_'

/-- `/:\s*[A-Z][A-Z0-9_]+[\s,}\]]/` at one position (pattern 2: upper-case
constant reference in value position). -/
def upperConstValueAt : List Char → Bool
  | ':' :: r =>
    (match r.dropWhile jsWS with
     | c :: rest =>
       c.isUpper &&
         (match rest with
          | c2 :: rest2 =>
            upperChar c2 &&
              (match rest2.dropWhile upperChar with
               | d :: _ => valueEndChar d
               | [] => false)
          | [] => false)
     | [] => false)
  | _ => false

/-- `/:\s*[a-zA-Z_$][\w$]*\s*\(/` at one position (pattern 3: call in value
position). -/
def callValueAt : List Char → Bool
  | ':' :: r =>
    (match r.dropWhile jsWS with
     | c :: rest =>
       identStart c &&
         (match (rest.dropWhile identChar).dropWhile jsWS with
          | '(' :: _ => true
          | _ => false)
     | [] => false)
  | _ => false

/-- `/:\s*Type\.\w+\s*\(/` at one position (pattern 3 exclusion). -/
def colonTypeCallAt : List Char → Bool
  | ':' :: r => typeCallAt (r.dropWhile jsWS)
  | _ => false

/-- `/:\s*z\.\w+\s*\(/` at one position (pattern 3 exclusion). -/
def colonZCallAt : List Char → Bool
  | ':' :: r => zCallAt (r.dropWhile jsWS)
  | _ => false

def backtick : Char := Char.ofNat 96

/-- Does `${` occur before the next backtick? -/
def hasDollarBraceBeforeTick : List Char → Bool
  | '$' :: '\x7b' :: _ => true
  | c :: rest => c != backtick && hasDollarBraceBeforeTick rest
  | [] => false

/-- ``/`[^`]*\$\{/`` at one position (pattern 4: template literal with an
interpolation). -/
def templateExprAt : List Char → Bool
  | c :: rest => c == backtick && hasDollarBraceBeforeTick rest
  | [] => false

/-- `/:\s*-?\d/` at one position. -/
def numberValueAt : List Char → Bool
  | ':' :: r =>
    (match r.dropWhile jsWS with
     | '-' :: d :: _ => d.isDigit
     | d :: _ => d.isDigit
     | [] => false)
  | _ => false

/-- One of `true`/`false`/`null` at this position followed by `\b`. -/
def wordLitAt (cs : List Char) (w : String) : Bool :=
  match eatLit w.data cs with
  | some [] => true
  | some (c :: _) => !wordChar c
  | none => false

/-- `/:\s*(true|false|null)\b/` at one position. -/
def boolNullValueAt : List Char → Bool
  | ':' :: r =>
    (let r2 := r.dropWhile jsWS
     wordLitAt r2 "true" || wordLitAt r2 "false" || wordLitAt r2 "null")
  | _ => false

/-- `/:\s*\[/` at one position. -/
def arrayValueAt : List Char → Bool
  | ':' :: r =>
    (match r.dropWhile jsWS with
     | '[' :: _ => true
     | _ => false)
  | _ => false

/-- `/:\s*\{/` at one position. -/
def objValueAt : List Char → Bool
  | ':' :: r =>
    (match r.dropWhile jsWS with
     | '\x7b' :: _ => true
     | _ => false)
  | _ => false

/-- `\s*[a-zA-Z_$][\w$]*\s*(?:[,}]|$)` (the shorthand-property core; `$` is
multiline, so a following newline also terminates). -/
def shorthandCore (cs : List Char) : Bool :=
  match cs.dropWhile jsWS with
  | c :: rest =>
    identStart c &&
      (match (rest.dropWhile identChar).dropWhile jsWS with
       | [] => true
       | d :: _ => d == ',' || d == '\x7d' || d == '\n')
  | [] => false

/-- Run `f` at every position that directly follows a character accepted by
`trigger`. -/
def scanAfterChars (trigger : Char → Bool) (f : List Char → Bool) :
    List Char → Bool
  | [] => false
  | c :: rest => (trigger c && f rest) || scanAfterChars trigger f rest

/-- `/(?:^|[,{])\s*[a-zA-Z_$][\w$]*\s*(?:[,}]|$)/m`: the start alternative
matches at the string start and after `\n` (multiline `^`). -/
def hasShorthandProp (content : List Char) : Bool :=
  shorthandCore content ||
    scanAfterChars (fun c => c == ',' || c == '\x7b' || c == '\n')
      shorthandCore content

/-- `/:\s*[a-zA-Z_$][\w$]*\s*[,}]/m` at one position. -/
def explicitIdentValueAt : List Char → Bool
  | ':' :: r =>
    (match r.dropWhile jsWS with
     | c :: rest =>
       identStart c &&
         (match (rest.dropWhile identChar).dropWhile jsWS with
          | d :: _ => d == ',' || d == '\x7d'
          | [] => false)
     | [] => false)
  | _ => false

/-- The slice between the first `{` and the last `}` of the content
(`indexOf`/`lastIndexOf`); fails when either is missing or mis-ordered. -/
def sliceBetweenBraces (content : List Char) : Option (List Char) :=
  match content.dropWhile (· != '\x7b') with
  | '\x7b' :: rest =>
    (match rest.reverse.dropWhile (· != '\x7d') with
     | '\x7d' :: revInner => some revInner.reverse
     | _ => none)
  | _ => none

/-- `isObjectWithIdentifierOnlyValues` from the type-exports check. -/
def isObjectWithIdentifierOnlyValues (content : List Char) : Bool :=
  match sliceBetweenBraces content with
  | none => false
  | some inner =>
    let objectContent := jsTrim inner
    if objectContent.isEmpty then false
    else if objectContent.any (fun c => c == '\x27' || c == '"') then false
    else if scanSuffixes numberValueAt objectContent then false
    else if scanSuffixes boolNullValueAt objectContent then false
    else if scanSuffixes arrayValueAt objectContent then false
    else if scanSuffixes objValueAt objectContent then false
    else
      hasShorthandProp objectContent ||
        scanSuffixes explicitIdentValueAt objectContent

/-- `/export\s+const\s+\w+\s*[:=]\s*$/.test(line.trimEnd())` at one
position: after the separator only blanks may remain, and the trimmed line
ends in a non-blank, so nothing may remain. -/
def trailingAssignAt (cs : List Char) : Bool :=
  match eatConstHeadAny cs with
  | some (_, rest) => (rest.dropWhile jsWS).isEmpty
  | none => false

/-- `/^[a-zA-Z_$][\w$]*(?:\.[a-zA-Z_$][\w$]*)*\s*\(/` on a trimmed line. -/
def callStartTest (cs : List Char) : Bool :=
  match parseDotted cs with
  | some (_, r) =>
    (match r.dropWhile jsWS with
     | '(' :: _ => true
     | _ => false)
  | none => false

/-- The value-on-next-line scan: up to three lines, skipping blank ones; the
first non-blank line decides and the loop breaks. -/
def multilineValueScan : Nat → List (List Char) → Bool
  | 0, _ => false
  | _, [] => false
  | Nat.succ n, l :: rest =>
    let nextLine := jsTrim l
    if nextLine.isEmpty then multilineValueScan n rest
    else
      newCoreAt nextLine ||
        (callStartTest nextLine && !typeCallAt nextLine && !zCallAt nextLine)

/-- `isRuntimeConstExport` from the type-exports check. -/
def isRuntimeConstExport (line : List Char)
    (nextLines : List (List Char)) : Bool :=
  if scanSuffixes newExprAt line then true
  else
    let funcCallHit :=
      match funcCallCapture line with
      | some cap =>
        !literalConstructors.contains (String.mk cap) &&
          !hasSubChars line "=>".data &&
          !arrowLookahead5 5 nextLines
      | none => false
    if funcCallHit then true
    else
      let objectLiteralMatch := scanSuffixes (literalInitAt '\x7b') line
      let arrayLiteralMatch := scanSuffixes (literalInitAt '[') line
      let literalPart :=
        if objectLiteralMatch || arrayLiteralMatch then
          let content := gatherContent line nextLines
          (scanSuffixes dotIdentAt content &&
            !scanSuffixes typeCallAt content &&
            !scanSuffixes zCallAt content &&
            scanSuffixes dottedValueAt content) ||
          scanSuffixes upperConstValueAt content ||
          (scanSuffixes callValueAt content &&
            !scanSuffixes colonTypeCallAt content &&
            !scanSuffixes colonZCallAt content) ||
          scanSuffixes templateExprAt content ||
          hasSubChars content "...".data ||
          (objectLiteralMatch && isObjectWithIdentifierOnlyValues content)
        else false
      if literalPart then true
      else
        scanSuffixes trailingAssignAt (jsTrimEnd line) &&
          multilineValueScan 3 nextLines

/-! ## Type-exports check: per-file scan -/

/-- A violation record as pushed by `scanFileForTypeExports`. -/
structure Violation where
  file : String
  line : Nat
  type : String
  severity : String
  content : String
  message : String
  reason : Option String := none
deriving DecidableEq, Repr

/-- `isCommentOrWhitespace` from the type-exports check. -/
def isCommentOrWhitespaceL (line : List Char) : Bool :=
  let trimmed := jsTrim line
  trimmed.isEmpty ||
  startsWithChars "//".data trimmed ||
  startsWithChars "/*".data trimmed ||
  startsWithChars "*".data trimmed ||
  endsWithChars trimmed "*/".data ||
  trimmed.all (fun c => jsWS c || c == '*')

def typeExportAllowedMarker : List Char := "// @type-export-allowed".data

/-- `hasIgnoreFlag` from the type-exports check. -/
def hasIgnoreFlagL (line prevLine : List Char) : Bool :=
  hasSubChars line typeExportAllowedMarker ||
    hasSubChars prevLine typeExportAllowedMarker

def reExportViolation (path : String) (idx : Nat) (line : List Char) :
    Violation :=
  { file := path, line := idx + 1, type := "Type Re-Export Anti-Pattern",
    severity := "HIGH", content := String.mk (jsTrim line),
    message := "export type * from ... pattern is discouraged",
    reason := some "Type re-exports make it harder to track type origins and can cause circular dependencies" }

def typeExportViolation (path : String) (idx : Nat) (line : List Char) :
    Violation :=
  { file := path, line := idx + 1, type := "Type Export from Non-Types File",
    severity := "HIGH", content := String.mk (jsTrim line),
    message := "Types/interfaces/enums should only be exported from types.ts or types/*.ts files" }

def bracesExportViolation (path : String) (idx : Nat) (line : List Char) :
    Violation :=
  { file := path, line := idx + 1, type := "Type Export from Non-Types File",
    severity := "HIGH", content := String.mk (jsTrim line),
    message := "Type exports should only be from types.ts or types/*.ts files" }

def constExportViolation (path : String) (idx : Nat) (line : List Char) :
    Violation :=
  { file := path, line := idx + 1, type := "Non-Functional Constant Export",
    severity := "MEDIUM", content := String.mk (jsTrim line),
    message := "Non-functional constants (primitives, objects, arrays) should be exported from types.ts files" }

/-- One iteration of the types-directory branch of `scanFileForTypeExports`
(only the re-export anti-pattern is checked there). -/
def scanLineTypesDir (path : String) (idx : Nat) (prev line : List Char) :
    Option Violation :=
  if isCommentOrWhitespaceL line then none
  else if hasIgnoreFlagL line prev then none
  else if isTypeReExportL line then some (reExportViolation path idx line)
  else none

/-- One iteration of the main branch of `scanFileForTypeExports`.  Each
iteration pushes at most one violation and returns. -/
def scanLineMain (path : String) (isValid : Bool) (idx : Nat)
    (prev line : List Char) (rest : List (List Char)) : Option Violation :=
  if isCommentOrWhitespaceL line then none
  else if hasIgnoreFlagL line prev then none
  else if isTypeReExportL line then some (reExportViolation path idx line)
  else if hasTypeExportL line && !isValid then
    some (typeExportViolation path idx line)
  else if hasTypeExportInBracesL line && !isValid then
    some (bracesExportViolation path idx line)
  else if isConstExportDeclL line && !isValid then
    if isConstExportFunctional line rest then none
    else if isSchemaConstExport line rest then none
    else if isRuntimeConstExport line rest then none
    else some (constExportViolation path idx line)
  else none

/-- The `lines.forEach((line, index) => ...)` driver: `prev` is the previous
line (the empty string at index zero) and the tail are the lookahead lines. -/
def scanLinesGo
    (f : Nat → List Char → List Char → List (List Char) → Option Violation) :
    Nat → List Char → List (List Char) → List Violation
  | _, _, [] => []
  | i, prev, l :: rest =>
    (f i prev l rest).toList ++ scanLinesGo f (i + 1) l rest

/-- `scanFileForTypeExports` from the type-exports check. -/
def scanFileForTypeExports (filePath : String) (lines : List (List Char)) :
    List Violation :=
  let isValid := isTypesFile filePath
  if isInTypesDir filePath then
    scanLinesGo (fun i prev l _ => scanLineTypesDir filePath i prev l) 0 [] lines
  else
    scanLinesGo (fun i prev l rest => scanLineMain filePath isValid i prev l rest)
      0 [] lines

/-! ## File enumerator: glob compilation (`globToRegex`)

The transformation escapes regex metacharacters (so they are literals),
replaces `**` by a placeholder, `*` by `[^/]*`, then `placeholder/` by
`(?:.*/|)` and a bare placeholder by `.*`, and anchors the result.  That is
the token language below. -/

inductive GlobTok where
  /-- a literal character -/
  | lit (c : Char)
  /-- `*` = `[^/]*` -/
  | star
  /-- `**/` = `(?:.*/|)` -/
  | dstarSlash
  /-- `**` = `.*` -/
  | dstar
deriving DecidableEq, Repr

/-- Tokenize a glob pattern exactly as the replacement chain does
(`**` pairs are taken left to right, `**/` collapses with the slash). -/
def parseGlob : List Char → List GlobTok
  | [] => []
  | '*' :: '*' :: '/' :: rest => .dstarSlash :: parseGlob rest
  | '*' :: '*' :: rest => .dstar :: parseGlob rest
  | '*' :: rest => .star :: parseGlob rest
  | c :: rest => .lit c :: parseGlob rest

mutual

/-- Backtracking matcher for the token list against the whole string
(the compiled regex is anchored at both ends).  Every recursive call
strictly decreases `toks.length + s.length`, so the fuel below never runs
out; fuel is used only to keep the definition kernel-reducible. -/
def globToksFuel : Nat → List GlobTok → List Char → Bool
  | 0, _, _ => false
  | Nat.succ n, toks, s =>
    match toks, s with
    | [], [] => true
    | [], _ :: _ => false
    | .lit _ :: _, [] => false
    | .lit c :: ts, x :: xs => c == x && globToksFuel n ts xs
    | .star :: ts, s =>
      globToksFuel n ts s ||
        (match s with
         | x :: xs => x != '/' && globToksFuel n (.star :: ts) xs
         | [] => false)
    | .dstar :: ts, s =>
      globToksFuel n ts s ||
        (match s with
         | _ :: xs => globToksFuel n (.dstar :: ts) xs
         | [] => false)
    | .dstarSlash :: ts, s => globToksFuel n ts s || dstarSlashFuel n ts s

/-- `(?:.*/|)` with a non-empty alternative: consume through some `/`. -/
def dstarSlashFuel : Nat → List GlobTok → List Char → Bool
  | 0, _, _ => false
  | Nat.succ _, _, [] => false
  | Nat.succ n, ts, x :: xs =>
    (x == '/' && globToksFuel n ts xs) || dstarSlashFuel n ts xs

end

/-- `globToRegex(pattern).test(s)`. -/
def globMatch (pattern s : String) : Bool :=
  let toks := parseGlob pattern.data
  globToksFuel (toks.length + s.data.length + 1) toks s.data

/-! ## File enumerator: directory walk (`findFilesMatchingPattern`)

The file system is an abstract tree; paths are handled relative to the walk
root (the constant absolute root prefix of the source affects neither the
relative-path tests nor the `.ts`/`.d.ts` suffix tests). -/

mutual
inductive FSNode where
  | file (name : String) (content : List (List Char))
  | dir (name : String) (children : FSForest)
inductive FSForest where
  | nil
  | cons (node : FSNode) (rest : FSForest)
end

def FSNode.name : FSNode → String
  | .file n _ => n
  | .dir n _ => n

/-- Join path segments with `/`. -/
def segPath (segs : List String) : String := String.intercalate "/" segs

mutual

/-- Visit one directory entry: the exclusion test runs before the
file/directory dispatch, so an excluded directory is pruned unvisited. -/
def scanNode (pat : String → Bool) (excl : List (String → Bool))
    (parent : List String) : FSNode → List (List String)
  | .file nm _ =>
    let segs := parent ++ [nm]
    let rel := segPath segs
    if excl.any (fun m => m rel) then []
    else
      if pat rel && endsWithChars rel.data ".ts".data &&
          !endsWithChars rel.data ".d.ts".data then [segs]
      else []
  | .dir nm children =>
    let segs := parent ++ [nm]
    let rel := segPath segs
    if excl.any (fun m => m rel) then []
    else scanForest pat excl segs children

/-- Visit the entries of one directory in order. -/
def scanForest (pat : String → Bool) (excl : List (String → Bool))
    (parent : List String) : FSForest → List (List String)
  | .nil => []
  | .cons node rest =>
    scanNode pat excl parent node ++ scanForest pat excl parent rest

end

/-- `findFilesMatchingPattern` from `get-typescript-files.ts` (paths are
returned relative to the root). -/
def findFilesMatchingPattern (rootChildren : FSForest) (pattern : String)
    (excludePatterns : List String) : List String :=
  (scanForest (globMatch pattern) (excludePatterns.map globMatch) []
      rootChildren).map segPath

/-! ## File enumerator: `getTypeScriptFiles` -/

structure TsConfigModel where
  includePats : Option (List String)
  excludePats : Option (List String)
  filesList : Option (List String)

/-- The abstract project world: whether `tsconfig.json` exists at the root,
its parsed contents, and the directory tree under the root. -/
structure World where
  tsconfigExists : Bool
  tsconfig : TsConfigModel
  rootChildren : FSForest

def DEFAULT_EXCLUDES : List String :=
  ["node_modules", "dist", "build", ".git", "coverage", ".next", "out"]

/-- `fs.existsSync` on a relative path over the abstract tree. -/
def fileExists : FSForest → List String → Bool
  | .nil, _ => false
  | .cons _ _, [] => false
  | .cons n rest, [s] =>
    (match n with
     | .file name _ => name == s
     | .dir _ _ => false) || fileExists rest [s]
  | .cons n rest, s :: s2 :: more =>
    (match n with
     | .dir name children => name == s && fileExists children (s2 :: more)
     | .file _ _ => false) || fileExists rest (s :: s2 :: more)

/-- `Array.from(new Set(...))`: deduplicate keeping first occurrences. -/
def dedupKeepFirst (l : List String) : List String :=
  go [] l
where
  go (seen : List String) : List String → List String
    | [] => []
    | x :: xs =>
      if seen.contains x then go seen xs else x :: go (x :: seen) xs

/-- `getTypeScriptFiles`: `none` is the NotFound sentinel returned when no
`tsconfig.json` exists at the project root. -/
def getTypeScriptFiles (w : World) : Option (List String) :=
  if !w.tsconfigExists then none
  else
    let includePatterns := w.tsconfig.includePats.getD ["**/*"]
    let excludePatterns := DEFAULT_EXCLUDES ++ w.tsconfig.excludePats.getD []
    let explicitFiles := w.tsconfig.filesList.getD []
    let fromExplicit := explicitFiles.filter fun f =>
      fileExists w.rootChildren ((splitSlashChars f.data).map String.mk) &&
        endsWithChars f.data ".ts".data && !endsWithChars f.data ".d.ts".data
    let fromIncludes :=
      (includePatterns.map fun pat =>
        findFilesMatchingPattern w.rootChildren pat excludePatterns).flatten
    some (sortStrings (dedupKeepFirst (fromExplicit ++ fromIncludes)))

/-! ## CLI control flow (`main` of the CLI entry point)

Only the two core checks specified for this repository are composed in the
non-fatal branch; the three peripheral checks are out of the specified
scope.  The fatal branch mirrors `checkTsConfigExists`: three error lines
and `process.exit(1)` before any check runs. -/

structure CliOutcome where
  exitCode : Nat
  errorLines : List String
  checksRun : List String
  violations : List Violation
  duplicateMatches : List DuplicateMatch

/-- The `console.error` lines of `checkTsConfigExists`. -/
def noTsconfigErrorLines : List String :=
  ["❌ ERROR: No tsconfig.json found in current directory\n",
   "This tool must be run from a TypeScript project root.",
   "Please navigate to your project directory and try again.\n"]

/-- Read a file's lines by its relative path (first match wins). -/
def readFileLines : FSForest → List String → Option (List (List Char))
  | .nil, _ => none
  | .cons _ _, [] => none
  | .cons n rest, [s] =>
    (match n with
     | .file name content => if name == s then some content else none
     | .dir _ _ => none).orElse
      (fun _ => readFileLines rest [s])
  | .cons n rest, s :: s2 :: more =>
    (match n with
     | .dir name children =>
       if name == s then readFileLines children (s2 :: more) else none
     | .file _ _ => none).orElse
      (fun _ => readFileLines rest (s :: s2 :: more))

def readLinesOf (w : World) (f : String) : List (List Char) :=
  (readFileLines w.rootChildren ((splitSlashChars f.data).map String.mk)).getD []

/-- The CLI `main`: argument parsing aside, it checks for `tsconfig.json`
(aborting with exit code 1 before any scan when it is missing) and then runs
the checks and aggregates their pass flags. -/
def cliMain (w : World) : CliOutcome :=
  if !w.tsconfigExists then
    { exitCode := 1, errorLines := noTsconfigErrorLines, checksRun := [],
      violations := [], duplicateMatches := [] }
  else
    let files := (getTypeScriptFiles w).getD []
    let exViolations :=
      (files.map fun f => scanFileForTypeExports f (readLinesOf w f)).flatten
    let dupMatches :=
      typeDuplicatesPipeline (files.map fun f => (f, readLinesOf w f))
    let failed := !exViolations.isEmpty || !dupMatches.isEmpty
    { exitCode := if failed then 1 else 0, errorLines := [],
      checksRun := ["type-exports", "type-duplicates"],
      violations := exViolations, duplicateMatches := dupMatches }

/-! ## Concrete inputs used by the claim theorems -/

def fldA : FieldDefinition := { name := "a", type := "string", optional := false }
def fldB : FieldDefinition := { name := "b", type := "string", optional := false }
def fldC : FieldDefinition := { name := "c", type := "string", optional := false }
def fldD : FieldDefinition := { name := "d", type := "string", optional := false }
def fldCOpt : FieldDefinition := { name := "c", type := "string", optional := true }
def fldId : FieldDefinition := { name := "id", type := "string", optional := false }
def fldName : FieldDefinition := { name := "name", type := "string", optional := false }
def fldEmail : FieldDefinition := { name := "email", type := "string", optional := false }

def c1AX : TypeDefinition := { name := "X", filePath := "a.ts", line := 1, fields := [fldA, fldB] }
def c1AY : TypeDefinition := { name := "Y", filePath := "a.ts", line := 5, fields := [fldC, fldD] }
def c1BX : TypeDefinition := { name := "X", filePath := "b.ts", line := 1, fields := [fldC, fldD] }
def c1BY : TypeDefinition := { name := "Y", filePath := "b.ts", line := 5, fields := [fldA, fldB] }

def c3T1 : TypeDefinition := { name := "P", filePath := "p.ts", line := 1, fields := [fldA, fldB] }
def c3T2 : TypeDefinition := { name := "Q", filePath := "q.ts", line := 1, fields := [fldA, fldB, fldCOpt] }

def c4UserLines : List (List Char) :=
  ["export interface User \x7b".data, "  id: string;".data,
   "  name: string;".data, "\x7d".data]
def c4PersonLines : List (List Char) :=
  ["export interface Person \x7b".data, "  id: string;".data,
   "  name: string;".data, "\x7d".data]
def c4Files : List (String × List (List Char)) :=
  [("user.ts", c4UserLines), ("person.ts", c4PersonLines)]

def c2Line : List Char := "export const f = () => 1;".data
def c5Line : List Char := "export const Config = \x7b note: \x27loading...\x27 \x7d;".data

def c7World : World := ⟨false, ⟨none, none, none⟩, .nil⟩

/-! ## Runtime-constructed initializer shapes

The two initializer forms of the runtime-constructed classification: a
`new X(...)` expression and a call whose callee is a dotted identifier
chain, rendered to a one-line `export const` declaration. -/

inductive RuntimeInit where
  | newExpr (cname : String) (args : String)
  | call (ids : List String) (args : String)

/-- A dotted identifier chain rendered with `.` separators. -/
def renderIds : List String → List Char
  | [] => []
  | [i] => i.data
  | i :: j :: rest => i.data ++ '.' :: renderIds (j :: rest)

/-- The rendered chain after its first identifier: empty, or a `.` and the
rendering of the remaining identifiers. -/
def chainSep : List String → List Char
  | [] => []
  | i :: rest => '.' :: renderIds (i :: rest)

def renderInit : RuntimeInit → List Char
  | .newExpr cname args => "new ".data ++ cname.data ++ '(' :: args.data ++ [')']
  | .call ids args => renderIds ids ++ '(' :: args.data ++ [')']

/-- `export const <name> = <initializer>;`. -/
def renderConstLine (name : String) (init : RuntimeInit) : List Char :=
  "export const ".data ++ name.data ++ " = ".data ++ renderInit init ++ [';']

/-- A nonempty `\w+` word. -/
def validWord (s : String) : Bool :=
  match s.data with
  | c :: r => wordChar c && r.all wordChar
  | [] => false

/-- A nonempty `[a-zA-Z_$][\w$]*` identifier. -/
def validIdent (s : String) : Bool :=
  match s.data with
  | c :: r => identStart c && r.all identChar
  | [] => false

/-- Wellformedness of a runtime initializer: a constructor name starting
with an upper-case letter, or a nonempty identifier chain whose rendering
is not one of the primitive-wrapper constructor names. -/
def validInit : RuntimeInit → Bool
  | .newExpr cname _ =>
    (match cname.data with
     | c :: _ => c.isUpper
     | [] => false)
  | .call ids _ =>
    !ids.isEmpty && ids.all validIdent &&
      !(literalConstructors.contains (String.mk (renderIds ids)))

/-- Scenario B initializer: `http.create({ baseURL: 'x' })`. -/
def c6Init : RuntimeInit := .call ["http", "create"] "\x7b baseURL: \x27x\x27 \x7d"

/-! ## Claim theorems -/


/-! ## Concrete instances used by the witnesses -/

def w3T1 : TypeDefinition := { name := "P", filePath := "p.ts", line := 1, fields := [fldA, fldCOpt] }
def fldDOpt : FieldDefinition := { name := "d", type := "string", optional := true }
def w3T2 : TypeDefinition := { name := "Q", filePath := "q.ts", line := 1, fields := [fldA, fldCOpt, fldDOpt] }

/-- The names of the fields present only in the larger type, comma-joined as
the subset suggestion renders them. -/
def omittedNames (small big : TypeDefinition) : String :=
  String.intercalate ", "
    ((big.fields.filter fun g =>
        small.fields.all fun f => f.name != g.name).map (·.name))

def w8A : TypeDefinition := { name := "A", filePath := "types/a.ts", line := 1, fields := [fldId, fldName] }
def w8B : TypeDefinition := { name := "B", filePath := "types/b.ts", line := 1, fields := [fldId, fldName, fldEmail] }

def c10Line : List Char := "export type * from \x27./user\x27;".data

def w9tree : FSForest :=
  .cons (.dir "node_modules" (.cons (.file "dep.ts" []) .nil))
    (.cons (.dir "src" (.cons (.file "a.ts" []) (.cons (.file "b.d.ts" []) .nil)))
      (.cons (.file "main.ts" []) .nil))

/-! ## C5: scalar object-literal initializers -/

def strOkChar (c : Char) : Bool :=
  c.isAlpha || c.isDigit || c == ' ' || c == '-' || c == '_'

inductive ScalarLit where
  | num (ds : List Char)
  | str (cs : List Char)

def renderScalar : ScalarLit → List Char
  | .num ds => ds
  | .str cs => '\x27' :: (cs ++ ['\x27'])

def scalarWF : ScalarLit → Bool
  | .num ds => !ds.isEmpty && ds.all Char.isDigit
  | .str cs => cs.all strOkChar

def renderEntries : List (String × ScalarLit) → List Char
  | [] => []
  | [(k, v)] => k.data ++ (':' :: ' ' :: renderScalar v)
  | (k, v) :: e :: es =>
    k.data ++ (':' :: ' ' :: (renderScalar v ++ (',' :: ' ' :: renderEntries (e :: es))))

def entryWF (kv : String × ScalarLit) : Bool := validWord kv.1 && scalarWF kv.2

def entriesWF (es : List (String × ScalarLit)) : Bool :=
  !es.isEmpty && es.all entryWF

def renderObjLine (name : String) (es : List (String × ScalarLit)) : List Char :=
  "export const ".data ++ name.data ++ " = ".data
    ++ ('\x7b' :: ' ' :: (renderEntries es ++ [' ', '\x7d', ';']))

def c5Entries : List (String × ScalarLit) :=
  [("apiKey", .str ['k']), ("timeout", .num ['5', '0', '0', '0'])]



/-- C1: the claim says exactly one `DuplicateMatch` is produced per
unordered pair of extracted type definitions from different files that
satisfies a matching rule — in particular one Exact match per pair with
identical field-signature multisets.  The code violates this: with
`a.ts` declaring `X{a,b}`, `Y{c,d}` and `b.ts` declaring `X{c,d}`,
`Y{a,b}`, both cross pairs `(a.X, b.Y)` and `(a.Y, b.X)` satisfy the Exact
rule (as `compareTypes` on each shows), yet the run produces a single match,
because the flattened-and-sorted pair key `"X|Y|a.ts|b.ts"` of the two
distinct pairs collides and the second pair is skipped as already
processed — the `pairKey` is not the unique pair identifier its comment and
the spec claim. -/
theorem C1_pairKey_collision_eval :
    (compareTypes c1AX c1BY).map (·.matchType) = some .exact ∧
    (compareTypes c1AY c1BX).map (·.matchType) = some .exact ∧
    pairKey c1AX c1BY = pairKey c1AY c1BX ∧
    (findDuplicateMatches [c1AX, c1AY, c1BX, c1BY]).map
      (fun m => (m.type1.name, m.type1.filePath, m.type2.name,
                 m.type2.filePath, m.matchType)) =
      [("X", "a.ts", "Y", "b.ts", .exact)] := by decide

/-- C3 counterexample: the claim allows an OptionalVariance match only when
both sides have at least one optional field.  For `P{a,b}` (no optional
fields) and `Q{a,b,c?}` from different files — a pair that is not an Exact
match — the code produces an OptionalVariance match although the first side
has zero optional fields, so the claim is false as stated. -/
theorem C3_counterexample :
    c3T1.filePath ≠ c3T2.filePath ∧
    areFieldsExactMatch c3T1.fields c3T2.fields = false ∧
    (c3T1.fields.filter (fun f => f.optional)).length = 0 ∧
    (compareTypes c3T1 c3T2).map (·.matchType) = some .optionalVariance := by
  decide

/-- C8 counterexample: for `P{a,b}` and `Q{a,b,c?}` every field of the
smaller type exists in the larger with identical declared type and
optionality and the counts differ, so the claim demands a Subset match; the
code classifies the pair OptionalVariance instead (that rule runs first and
its implementation does not require optional fields on both sides). -/
theorem C8_counterexample :
    (∀ f ∈ c3T1.fields, ∃ g ∈ c3T2.fields,
        g.name = f.name ∧ g.type = f.type ∧ g.optional = f.optional) ∧
    c3T1.fields.length < c3T2.fields.length ∧
    (compareTypes c3T1 c3T2).map (·.matchType) = some .optionalVariance ∧
    (compareTypes c3T1 c3T2).map (·.matchType) ≠ some .subset := by decide

/-- Characterization of `checkOptionalVariance`: it yields a suggestion
exactly when the required-field subsets are an Exact match, the two
required-field subsets are not both empty, and the optional-field counts
differ. -/
theorem checkOptionalVariance_some_iff (f1 f2 : List FieldDefinition) :
    (checkOptionalVariance f1 f2).isSome = true ↔
      (¬((f1.filter fun f => !f.optional) = [] ∧
           (f2.filter fun f => !f.optional) = []) ∧
        areFieldsExactMatch (f1.filter fun f => !f.optional)
          (f2.filter fun f => !f.optional) = true ∧
        (f1.filter fun f => f.optional).length ≠
          (f2.filter fun f => f.optional).length) := by
  simp only [checkOptionalVariance]
  split_ifs with h1 h2 h3 h4
  · -- both required-field sets empty: no suggestion, first condition fails
    rw [Bool.and_eq_true, beq_iff_eq, beq_iff_eq] at h1
    simp only [Option.isSome_none, Bool.false_eq_true, false_iff]
    rintro ⟨hne, -, -⟩
    exact hne ⟨List.length_eq_zero.mp h1.1, List.length_eq_zero.mp h1.2⟩
  · -- required-field sets differ: second condition fails
    simp only [Bool.not_eq_true'] at h2
    simp [h2]
  · -- both optional-field counts zero: counts are equal
    rw [Bool.and_eq_true, beq_iff_eq, beq_iff_eq] at h3
    simp [h3.1, h3.2]
  · -- all guards passed: suggestion produced and all conditions hold
    rw [bne_iff_ne] at h4
    simp only [Bool.not_eq_true, Bool.not_eq_false'] at h2
    simp only [Option.isSome_some, true_iff]
    refine ⟨?_, h2, h4⟩
    rintro ⟨ha, hb⟩
    rw [Bool.and_eq_true, beq_iff_eq, beq_iff_eq] at h1
    exact h1 ⟨by simp [ha], by simp [hb]⟩
  · -- optional-field counts equal: third condition fails
    rw [bne_iff_ne, not_not] at h4
    simp [h4]

/-- Any match returned by `checkSubsetRelationship` has kind Subset or
Superset. -/
theorem checkSubsetRelationship_matchType {t1 t2 : TypeDefinition}
    {m1 m2 : List (String × FieldDefinition)} {m : DuplicateMatch}
    (h : checkSubsetRelationship t1 t2 m1 m2 = some m) :
    m.matchType = .subset ∨ m.matchType = .superset := by
  simp only [checkSubsetRelationship] at h
  split_ifs at h with h1 h2
  · exact Or.inl (by cases h; rfl)
  · exact Or.inr (by cases h; rfl)

/-- Any match returned by `checkRequiredOpportunity` has kind
RequiredOpportunity. -/
theorem checkRequiredOpportunity_matchType {t1 t2 : TypeDefinition}
    {f1 f2 : List FieldDefinition} {m : DuplicateMatch}
    (h : checkRequiredOpportunity t1 t2 f1 f2 = some m) :
    m.matchType = .requiredOpportunity := by
  simp only [checkRequiredOpportunity] at h
  split_ifs at h with h1 h2 h3 h4 <;> (cases h <;> rfl)

/-- C3 (amended): for a pair from different files that is not an Exact
match, an OptionalVariance match is produced exactly when the
required-field subsets are an Exact match, the two types do not both have
empty required-field subsets, and the optional-field counts differ (the
side with fewer optionals may have none; both sides having at least one
optional field is not required). -/
theorem C3_optional_variance_iff (t1 t2 : TypeDefinition)
    (hfile : t1.filePath ≠ t2.filePath)
    (hnotExact : areFieldsExactMatch t1.fields t2.fields = false) :
    ((compareTypes t1 t2).map (·.matchType) = some .optionalVariance) ↔
      (¬((t1.fields.filter fun f => !f.optional) = [] ∧
           (t2.fields.filter fun f => !f.optional) = []) ∧
        areFieldsExactMatch (t1.fields.filter fun f => !f.optional)
          (t2.fields.filter fun f => !f.optional) = true ∧
        (t1.fields.filter fun f => f.optional).length ≠
          (t2.fields.filter fun f => f.optional).length) := by
  have hbeq : (t1.filePath == t2.filePath) = false := by
    simpa using hfile
  rw [← checkOptionalVariance_some_iff]
  simp only [compareTypes, hbeq, hnotExact, Bool.false_eq_true, if_false]
  cases hov : checkOptionalVariance t1.fields t2.fields with
  | some s => simp [hov]
  | none =>
    simp only [hov, Option.isSome_none]
    cases hsub : checkSubsetRelationship t1 t2 (buildFieldMap t1.fields)
        (buildFieldMap t2.fields) with
    | some m =>
      rcases checkSubsetRelationship_matchType hsub with hk | hk <;>
        simp [hsub, hk]
    | none =>
      cases hreq : checkRequiredOpportunity t1 t2 t1.fields t2.fields with
      | some m => simp [hsub, hreq, checkRequiredOpportunity_matchType hreq]
      | none => simp [hsub, hreq]


/-- C3 witness: a concrete pair satisfying the amended conditions is indeed
classified OptionalVariance. -/
theorem C3_witness :
    (compareTypes w3T1 w3T2).map (·.matchType) = some .optionalVariance :=
  (C3_optional_variance_iff w3T1 w3T2 (by decide) (by decide)).mpr (by decide)

/-- Inserting a fresh key appends. -/
theorem mapInsert_fresh (k : String) (v : FieldDefinition)
    (m : List (String × FieldDefinition)) (h : ∀ p ∈ m, p.1 ≠ k) :
    mapInsert k v m = m ++ [(k, v)] := by
  induction m with
  | nil => rfl
  | cons p rest ih =>
    simp only [mapInsert, List.cons_append]
    rw [if_neg (by simpa using h p (List.mem_cons_self p rest)),
      ih (fun q hq => h q (List.mem_cons_of_mem _ hq))]

theorem buildFieldMap_eq_aux (fs : List FieldDefinition)
    (hnd : (fs.map (·.name)).Nodup) (acc : List (String × FieldDefinition))
    (hdisj : ∀ f ∈ fs, ∀ p ∈ acc, p.1 ≠ f.name) :
    fs.foldl (fun m f => mapInsert f.name f m) acc =
      acc ++ fs.map (fun f => (f.name, f)) := by
  induction fs generalizing acc with
  | nil => simp
  | cons f rest ih =>
    simp only [List.foldl_cons, List.map_cons]
    rw [mapInsert_fresh _ _ _
      (fun p hp => hdisj f (List.mem_cons_self f rest) p hp)]
    rw [List.map_cons] at hnd
    have hnd' := List.nodup_cons.mp hnd
    rw [ih hnd'.2 (acc ++ [(f.name, f)]) ?_]
    · simp
    · intro g hg p hp
      rcases List.mem_append.mp hp with hmem | hmem
      · exact hdisj g (List.mem_cons_of_mem _ hg) p hmem
      · simp only [List.mem_singleton] at hmem
        subst hmem
        intro hEq
        exact hnd'.1 (List.mem_map.mpr ⟨g, hg, hEq.symm⟩)

/-- With pairwise distinct field names, the JS map is the plain association
list of the fields. -/
theorem buildFieldMap_eq (fs : List FieldDefinition)
    (hnd : (fs.map (·.name)).Nodup) :
    buildFieldMap fs = fs.map (fun f => (f.name, f)) := by
  simpa using buildFieldMap_eq_aux fs hnd [] (by simp)

theorem mapValues_map (fs : List FieldDefinition) :
    mapValues (fs.map (fun f => (f.name, f))) = fs := by
  induction fs with
  | nil => rfl
  | cons f rest ih => simp only [List.map_cons, mapValues, List.map] at ih ⊢; rw [ih]

theorem mapGet_cons (p : String × FieldDefinition)
    (m : List (String × FieldDefinition)) (n : String) :
    mapGet (p :: m) n = if p.1 == n then some p.2 else mapGet m n := by
  simp only [mapGet, List.find?]
  by_cases h : (p.1 == n) = true <;> simp [h]

theorem mapGet_map (fs : List FieldDefinition) (n : String) :
    mapGet (fs.map (fun f => (f.name, f))) n =
      fs.find? (fun f => f.name == n) := by
  induction fs with
  | nil => rfl
  | cons f rest ih =>
    rw [List.map_cons, mapGet_cons]
    by_cases h : (f.name == n) = true <;>
      simp only [List.find?_cons, h, if_true, Bool.false_eq_true, if_false, ih]

theorem mapHas_isSome (m : List (String × FieldDefinition)) (n : String) :
    mapHas m n = (mapGet m n).isSome := by
  simp [mapHas, mapGet]

theorem findIsSome_eq_any (p : FieldDefinition → Bool)
    (l : List FieldDefinition) : (l.find? p).isSome = l.any p := by
  induction l with
  | nil => rfl
  | cons x xs ih =>
    by_cases h : p x = true <;>
      simp only [List.find?_cons, List.any_cons, h, Option.isSome_some,
        Bool.true_or, Bool.false_or, ih]

theorem mapHas_map (fs : List FieldDefinition) (n : String) :
    mapHas (fs.map (fun f => (f.name, f))) n =
      fs.any (fun f => f.name == n) := by
  rw [mapHas_isSome, mapGet_map, findIsSome_eq_any]

theorem find?_name_of_mem {fs : List FieldDefinition} {g : FieldDefinition}
    (hnd : (fs.map (·.name)).Nodup) (hg : g ∈ fs) :
    fs.find? (fun f => f.name == g.name) = some g := by
  induction fs with
  | nil => cases hg
  | cons f rest ih =>
    rw [List.map_cons] at hnd
    have hnd' := List.nodup_cons.mp hnd
    rcases List.mem_cons.mp hg with rfl | hmem
    · simp [List.find?_cons]
    · have hne : (f.name == g.name) = false := by
        simp only [beq_eq_false_iff_ne, ne_eq]
        intro hEq
        exact hnd'.1 (List.mem_map.mpr ⟨g, hmem, hEq.symm⟩)
      simp only [List.find?_cons, hne]
      exact ih hnd'.2 hmem

/-- Unequal field counts rule out an exact structural match. -/
theorem areFieldsExactMatch_of_ne_length {f1 f2 : List FieldDefinition}
    (h : f1.length ≠ f2.length) : areFieldsExactMatch f1 f2 = false := by
  simp [areFieldsExactMatch, h]

theorem areFieldsExactMatch_comm (f1 f2 : List FieldDefinition) :
    areFieldsExactMatch f1 f2 = areFieldsExactMatch f2 f1 := by
  simp only [areFieldsExactMatch]
  rw [Bool.eq_iff_iff]
  simp only [Bool.and_eq_true, beq_iff_eq]
  constructor <;> rintro ⟨h1, h2⟩ <;> exact ⟨h1.symm, h2.symm⟩

theorem not_any_eq_all_bne (l : List FieldDefinition) (n : String) :
    (!(l.any fun f => f.name == n)) = l.all fun f => f.name != n := by
  induction l with
  | nil => rfl
  | cons x xs ih =>
    simp only [List.any_cons, List.all_cons, Bool.not_or, ih, bne]


/-- C8 (amended): for two composite types from different files with
pairwise-distinct field names, where every field of the smaller-field-count
type exists in the larger with identical declared type and optionality, the
field counts differ, and the pair does not satisfy the (earlier)
OptionalVariance rule, exactly one match is produced with the kind matching
which side is smaller — Subset when the first argument is smaller, Superset
for the reversed orientation — and its suggestion names exactly the fields
present only in the larger type. -/
theorem C8_subset_superset (t1 t2 : TypeDefinition)
    (hfile : t1.filePath ≠ t2.filePath)
    (hnd1 : (t1.fields.map (·.name)).Nodup)
    (hnd2 : (t2.fields.map (·.name)).Nodup)
    (hlen : t1.fields.length < t2.fields.length)
    (hsub : ∀ f ∈ t1.fields, ∃ g ∈ t2.fields,
        g.name = f.name ∧ g.type = f.type ∧ g.optional = f.optional)
    (hnov : ¬(¬((t1.fields.filter fun f => !f.optional) = [] ∧
            (t2.fields.filter fun f => !f.optional) = []) ∧
        areFieldsExactMatch (t1.fields.filter fun f => !f.optional)
          (t2.fields.filter fun f => !f.optional) = true ∧
        (t1.fields.filter fun f => f.optional).length ≠
          (t2.fields.filter fun f => f.optional).length)) :
    compareTypes t1 t2 = some
      { type1 := t1, type2 := t2, matchType := .subset,
        suggestion := subsetSuggestion t1.name t2.name (omittedNames t1 t2) } ∧
    compareTypes t2 t1 = some
      { type1 := t1, type2 := t2, matchType := .superset,
        suggestion := subsetSuggestion t1.name t2.name (omittedNames t1 t2) } := by
  have hbeq12 : (t1.filePath == t2.filePath) = false := by simpa using hfile
  have hbeq21 : (t2.filePath == t1.filePath) = false := by
    simpa using (Ne.symm hfile)
  have hne12 := areFieldsExactMatch_of_ne_length (Nat.ne_of_lt hlen)
  have hne21 := areFieldsExactMatch_of_ne_length (Nat.ne_of_gt hlen)
  have hov12 : checkOptionalVariance t1.fields t2.fields = none := by
    rw [← Option.not_isSome_iff_eq_none]
    intro hs
    exact hnov ((checkOptionalVariance_some_iff _ _).mp (by simpa using hs))
  have hov21 : checkOptionalVariance t2.fields t1.fields = none := by
    rw [← Option.not_isSome_iff_eq_none]
    intro hs
    have := (checkOptionalVariance_some_iff _ _).mp (by simpa using hs)
    rw [areFieldsExactMatch_comm] at this
    exact hnov ⟨fun hpq => this.1 ⟨hpq.2, hpq.1⟩, this.2.1, (this.2.2).symm⟩
  have hm1 := buildFieldMap_eq t1.fields hnd1
  have hm2 := buildFieldMap_eq t2.fields hnd2
  -- the smaller side's fields all occur in the larger side's map
  have hall12 : (t1.fields.all fun f1 =>
      match mapGet (t2.fields.map fun f => (f.name, f)) f1.name with
      | some f2 => f2.type == f1.type && f2.optional == f1.optional
      | none => false) = true := by
    rw [List.all_eq_true]
    intro f hf
    obtain ⟨g, hg, hgn, hgt, hgo⟩ := hsub f hf
    rw [mapGet_map]
    rw [show t2.fields.find? (fun x => x.name == f.name) = some g from
      hgn ▸ find?_name_of_mem hnd2 hg]
    simp [hgt, hgo]
  -- the omitted-field list of the source agrees with the set difference
  have homit : (t2.fields.filter fun f2 =>
      !mapHas (t1.fields.map fun f => (f.name, f)) f2.name) =
      t2.fields.filter fun g => t1.fields.all fun f => f.name != g.name := by
    apply List.filter_congr
    intro g _
    rw [mapHas_map, not_any_eq_all_bne]
  have hlenT : decide (t1.fields.length < t2.fields.length) = true :=
    decide_eq_true hlen
  have hlenF : decide (t2.fields.length < t1.fields.length) = false :=
    decide_eq_false (by omega)
  have hcs12 : checkSubsetRelationship t1 t2 (buildFieldMap t1.fields)
      (buildFieldMap t2.fields) = some
      { type1 := t1, type2 := t2, matchType := .subset,
        suggestion := subsetSuggestion t1.name t2.name (omittedNames t1 t2) } := by
    simp only [checkSubsetRelationship, hm1, hm2, mapValues_map, hall12,
      homit, hlenT, Bool.and_self, if_true, omittedNames]
  have hcs21 : checkSubsetRelationship t2 t1 (buildFieldMap t2.fields)
      (buildFieldMap t1.fields) = some
      { type1 := t1, type2 := t2, matchType := .superset,
        suggestion := subsetSuggestion t1.name t2.name (omittedNames t1 t2) } := by
    simp only [checkSubsetRelationship, hm1, hm2, mapValues_map, hall12,
      homit, hlenT, hlenF, Bool.and_false, Bool.false_eq_true, if_false,
      Bool.and_self, if_true, omittedNames]
  refine ⟨?_, ?_⟩
  · simp only [compareTypes, hbeq12, Bool.false_eq_true, if_false, hne12,
      hov12, hcs12]
  · simp only [compareTypes, hbeq21, Bool.false_eq_true, if_false, hne21,
      hov21, hcs21]


/-- C8 witness: scenario D — `{id,name}` against `{id,name,email}` yields a
Subset match whose suggestion names `email` as the omittable field. -/
theorem C8_witness :
    compareTypes w8A w8B = some
      { type1 := w8A, type2 := w8B, matchType := .subset,
        suggestion := subsetSuggestion "A" "B" "email" } :=
  ((C8_subset_superset w8A w8B (by decide) (by decide) (by decide)
      (by decide) (by decide) (by decide)).1).trans (by decide)

/-- C4 counterexample: the claim says no `TypeDefinition` is ever created
from a file that is not a type module, and hence no `DuplicateMatch`
involves one.  Running the extraction-plus-comparison pipeline on two plain
implementation files `user.ts` and `person.ts` (neither is a type module)
produces an Exact match between their declarations. -/
theorem C4_counterexample :
    isTypesFile "user.ts" = false ∧ isTypesFile "person.ts" = false ∧
    (typeDuplicatesPipeline c4Files).map
      (fun m => (m.type1.filePath, m.type2.filePath, m.matchType)) =
      [("user.ts", "person.ts", .exact)] := by decide

theorem extractDefsLoop_path_agnostic (p q : String)
    (allLines : List (List Char)) (ls : List (List Char)) :
    ∀ i : Nat,
      (extractDefsLoop p allLines i ls).map (fun d => (d.name, d.line, d.fields)) =
      (extractDefsLoop q allLines i ls).map (fun d => (d.name, d.line, d.fields)) := by
  induction ls with
  | nil => intro i; rfl
  | cons line rest ih =>
    intro i
    by_cases h1 : hasSubChars line duplicateAllowedMarker = true
    · simp only [extractDefsLoop, h1, if_true]
      exact ih (i + 1)
    · cases h2 : typeDeclName line with
      | none =>
        simp only [extractDefsLoop, eq_false_of_ne_true h1,
          Bool.false_eq_true, if_false, h2]
        exact ih (i + 1)
      | some name =>
        simp only [extractDefsLoop, eq_false_of_ne_true h1,
          Bool.false_eq_true, if_false, h2]
        cases rest with
        | nil =>
          by_cases h3 : (!(line.contains '\x7b' || false)) = true
          · rw [if_pos h3, if_pos h3]
            exact ih (i + 1)
          · rw [if_neg h3, if_neg h3]
            by_cases h4 : 2 ≤ (extractFields allLines i).length
            · rw [if_pos h4, if_pos h4]
              simpa using
                congrArg (List.cons (name, i + 1, extractFields allLines i))
                  (ih (i + 1))
            · rw [if_neg h4, if_neg h4]
              exact ih (i + 1)
        | cons next tail =>
          by_cases h3 : (!(line.contains '\x7b' ||
              startsWithChars ['\x7b'] (jsTrim next))) = true
          · rw [if_pos h3, if_pos h3]
            exact ih (i + 1)
          · rw [if_neg h3, if_neg h3]
            by_cases h4 : 2 ≤ (extractFields allLines i).length
            · rw [if_pos h4, if_pos h4]
              simpa using
                congrArg (List.cons (name, i + 1, extractFields allLines i))
                  (ih (i + 1))
            · rw [if_neg h4, if_neg h4]
              exact ih (i + 1)

/-- C4 (amended): the duplicate detector's extraction phase runs on every
enumerated file and never consults the type-module predicate: the extracted
declarations (names, lines and field lists) from a file's content are
identical whatever the file's path is, so non-type-module files contribute
type definitions — and hence duplicate matches — exactly like type
modules. -/
theorem C4_extraction_path_agnostic (p q : String) (lines : List (List Char)) :
    (extractTypeDefinitions p lines).map (fun d => (d.name, d.line, d.fields)) =
      (extractTypeDefinitions q lines).map (fun d => (d.name, d.line, d.fields)) := by
  simp only [extractTypeDefinitions]
  split
  · rfl
  · exact extractDefsLoop_path_agnostic p q lines lines 0

/-- C2 counterexample: the claim says a const export classified Functional
inside a type module is reported as a distinct "functional export misplaced
in a type module" violation kind.  For the type module
`src/types/helpers.ts` containing `export const f = () => 1;` — a const the
classifier itself deems Functional — the scan returns no violations at all:
files in a `types/` directory are only checked for the re-export
anti-pattern. -/
theorem C2_counterexample :
    isTypesFile "src/types/helpers.ts" = true ∧
    isConstExportFunctional c2Line [] = true ∧
    scanFileForTypeExports "src/types/helpers.ts" [c2Line] = [] := by decide

/-- Push a per-line property through the scan driver. -/
theorem scanLinesGo_forall {P : Violation → Prop}
    (f : Nat → List Char → List Char → List (List Char) → Option Violation)
    (hf : ∀ i prev l rest v, f i prev l rest = some v → P v) :
    ∀ (i : Nat) (prev : List Char) (ls : List (List Char)),
      ∀ v ∈ scanLinesGo f i prev ls, P v := by
  intro i prev ls
  induction ls generalizing i prev with
  | nil => intro v hv; cases hv
  | cons l rest ih =>
    intro v hv
    simp only [scanLinesGo] at hv
    rcases List.mem_append.mp hv with h | h
    · cases hfv : f i prev l rest with
      | none => rw [hfv] at h; cases h
      | some w =>
        rw [hfv] at h
        simp only [Option.toList_some, List.mem_singleton] at h
        subst h
        exact hf _ _ _ _ _ hfv
    · exact ih _ _ v h

theorem scanLineTypesDir_type {path : String} {i : Nat} {prev l : List Char}
    {v : Violation} (h : scanLineTypesDir path i prev l = some v) :
    v.type = "Type Re-Export Anti-Pattern" := by
  simp only [scanLineTypesDir] at h
  split_ifs at h <;> cases h <;> rfl

theorem scanLineMain_type_of_valid {path : String} {i : Nat}
    {prev l : List Char} {rest : List (List Char)} {v : Violation}
    (h : scanLineMain path true i prev l rest = some v) :
    v.type = "Type Re-Export Anti-Pattern" := by
  simp only [scanLineMain, Bool.not_true, Bool.and_false, Bool.false_eq_true,
    if_false] at h
  split_ifs at h <;> cases h <;> rfl

/-- In a type module the scan can only ever report the re-export
anti-pattern: every other violation kind is guarded by the file not being a
type module (and `types/`-directory files take the re-export-only early
branch).  In particular there is no "functional export misplaced in a type
module" violation kind. -/
theorem typesFile_scan_only_reexport (path : String)
    (lines : List (List Char)) (h : isTypesFile path = true) :
    ∀ v ∈ scanFileForTypeExports path lines,
      v.type = "Type Re-Export Anti-Pattern" := by
  intro v hv
  simp only [scanFileForTypeExports, h] at hv
  by_cases hd : isInTypesDir path = true
  · rw [if_pos hd] at hv
    exact scanLinesGo_forall _
      (fun i prev l rest v hf => scanLineTypesDir_type hf) 0 [] lines v hv
  · rw [if_neg hd] at hv
    exact scanLinesGo_forall _
      (fun i prev l rest v hf => scanLineMain_type_of_valid hf) 0 [] lines v hv

/-- C2 (amended): type-module status suppresses not only literal-constant
and type-declaration violations but Functional const content as well — for
a type module the scan reports nothing except the re-export anti-pattern,
and no "functional export misplaced in a type module" violation kind
exists. -/
theorem C2_type_module_reexport_only (path : String)
    (lines : List (List Char)) (h : isTypesFile path = true) :
    ∀ v ∈ scanFileForTypeExports path lines,
      v.type = "Type Re-Export Anti-Pattern" :=
  typesFile_scan_only_reexport path lines h


/-- C2 witness: the amended statement applied to a concrete type module
whose scan output contains a re-export violation. -/
theorem C2_witness :
    (reExportViolation "a/types/b.ts" 0 c10Line).type =
      "Type Re-Export Anti-Pattern" :=
  C2_type_module_reexport_only "a/types/b.ts" [c10Line] (by decide) _
    (by decide)

/-- C10: the type-module predicate is a suffix test on the normalized path,
so `src/prototypes.ts` and `mytypes.ts` count as type modules, and for any
type module the scan suppresses both the type-export violation kinds and
the non-functional-constant-export kind (only the re-export anti-pattern
can be reported). -/
theorem C10_suffix_type_module :
    isTypesFile "src/prototypes.ts" = true ∧
    isTypesFile "mytypes.ts" = true ∧
    ∀ (path : String) (lines : List (List Char)), isTypesFile path = true →
      ∀ v ∈ scanFileForTypeExports path lines,
        v.type ≠ "Type Export from Non-Types File" ∧
        v.type ≠ "Non-Functional Constant Export" := by
  refine ⟨by decide, by decide, fun path lines h v hv => ?_⟩
  have := typesFile_scan_only_reexport path lines h v hv
  rw [this]
  exact ⟨by decide, by decide⟩

/-- C10 witness: the suppression statement applied to `src/prototypes.ts`
with a concrete violation of its scan output. -/
theorem C10_witness :
    (reExportViolation "src/prototypes.ts" 0 c10Line).type ≠
        "Type Export from Non-Types File" ∧
    (reExportViolation "src/prototypes.ts" 0 c10Line).type ≠
        "Non-Functional Constant Export" :=
  C10_suffix_type_module.2.2 "src/prototypes.ts" [c10Line] (by decide) _
    (by decide)

/-- C5 counterexample: the claim says every const export whose initializer
is a bare object literal of scalar literals yields exactly one MEDIUM
violation in a non-type-module file.  For
`export const Config = { note: 'loading...' };` in `values.ts` — a bare
object whose only entry is a scalar string literal — the scan yields zero
violations: the `...` characters inside the string match the spread-token
runtime heuristic, so the export is classified RuntimeConstructed. -/
theorem C5_counterexample :
    isTypesFile "values.ts" = false ∧
    isRuntimeConstExport c5Line [] = true ∧
    scanFileForTypeExports "values.ts" [c5Line] = [] := by decide

/-- C7 counterexample: with no `tsconfig.json` the enumerator does return
the NotFound sentinel and the CLI aborts with exit code 1 before running
any check, with zero violations — but the claim's "CRITICAL-severity
report" does not exist: the abort emits plain error lines carrying no
severity label (none of them even mentions CRITICAL). -/
theorem C7_counterexample :
    getTypeScriptFiles c7World = none ∧
    (cliMain c7World).exitCode = 1 ∧
    (cliMain c7World).checksRun = [] ∧
    (cliMain c7World).violations = [] ∧
    (cliMain c7World).errorLines.all
      (fun m => !hasSubChars m.data "CRITICAL".data) = true := by decide

/-- C7 (amended): if no `tsconfig.json` exists at the project root the
enumerator returns the NotFound sentinel and the whole run aborts before
any scanning with a single plain error report — three fixed `console.error`
lines carrying no severity label — and exit code 1; zero checks run and no
violations are collected. -/
theorem C7_missing_tsconfig_aborts (w : World)
    (h : w.tsconfigExists = false) :
    getTypeScriptFiles w = none ∧
    cliMain w =
      { exitCode := 1, errorLines := noTsconfigErrorLines, checksRun := [],
        violations := [], duplicateMatches := [] } := by
  constructor
  · simp [getTypeScriptFiles, h]
  · simp [cliMain, h]

/-- C7 witness: the abort conclusion at a concrete world without a project
configuration file. -/
theorem C7_witness :
    getTypeScriptFiles c7World = none ∧
    cliMain c7World =
      { exitCode := 1, errorLines := noTsconfigErrorLines, checksRun := [],
        violations := [], duplicateMatches := [] } :=
  C7_missing_tsconfig_aborts c7World (by decide)

/-! ## The walk lemmas for the pruning claim -/

mutual

/-- Every path emitted from a node extends the parent by a non-empty suffix
starting with the node's name, and every intermediate relative path on the
way down (the entry itself included) was tested against the exclude
matchers and found unexcluded. -/
theorem scanNode_mem_shape (pat : String → Bool)
    (excl : List (String → Bool)) :
    ∀ (n : FSNode) (parent fsegs : List String),
      fsegs ∈ scanNode pat excl parent n →
      ∃ s, s ≠ [] ∧ s.head? = some n.name ∧ fsegs = parent ++ s ∧
        ∀ k, 0 < k → k ≤ s.length →
          (excl.any fun m => m (segPath (parent ++ s.take k))) = false
  | .file nm content, parent, fsegs, h => by
    simp only [scanNode] at h
    split_ifs at h with h1 h2
    · cases h
    · simp only [List.mem_singleton] at h
      subst h
      refine ⟨[nm], by simp, rfl, rfl, ?_⟩
      intro k hk1 hk2
      have hk : k = 1 := by simpa using Nat.le_antisymm hk2 hk1
      subst hk
      simpa using eq_false_of_ne_true h1
    · cases h
  | .dir nm children, parent, fsegs, h => by
    simp only [scanNode] at h
    split_ifs at h with h1
    · cases h
    · obtain ⟨s', hs1, hseq, hs4⟩ :=
        scanForest_mem_shape pat excl children (parent ++ [nm]) fsegs h
      refine ⟨nm :: s', by simp, rfl, by simpa using hseq, ?_⟩
      intro k hk1 hk2
      cases k with
      | zero => cases hk1
      | succ k' =>
        cases k' with
        | zero =>
          simpa using eq_false_of_ne_true h1
        | succ k'' =>
          have := hs4 (k'' + 1) (Nat.succ_pos _) (by simpa using hk2)
          simpa [List.take_succ_cons, List.append_assoc] using this
  termination_by n => sizeOf n

/-- Forest version of `scanNode_mem_shape` (without the head fact). -/
theorem scanForest_mem_shape (pat : String → Bool)
    (excl : List (String → Bool)) :
    ∀ (f : FSForest) (parent fsegs : List String),
      fsegs ∈ scanForest pat excl parent f →
      ∃ s, s ≠ [] ∧ fsegs = parent ++ s ∧
        ∀ k, 0 < k → k ≤ s.length →
          (excl.any fun m => m (segPath (parent ++ s.take k))) = false
  | .nil, parent, fsegs, h => by cases h
  | .cons n rest, parent, fsegs, h => by
    simp only [scanForest] at h
    rcases List.mem_append.mp h with h' | h'
    · obtain ⟨s, hs1, _, hs3, hs4⟩ :=
        scanNode_mem_shape pat excl n parent fsegs h'
      exact ⟨s, hs1, hs3, hs4⟩
    · exact scanForest_mem_shape pat excl rest parent fsegs h'
  termination_by f => sizeOf f

end

/-- Output paths properly extend the walk root. -/
theorem scanForest_not_self (pat : String → Bool)
    (excl : List (String → Bool)) (f : FSForest) (parent : List String) :
    parent ∉ scanForest pat excl parent f := by
  intro h
  obtain ⟨s, hs1, hseq, -⟩ := scanForest_mem_shape pat excl f parent parent h
  have hlen := congrArg List.length hseq
  simp only [List.length_append] at hlen
  exact hs1 (List.length_eq_zero.mp (by omega))

mutual

/-- Adding an exclude matcher that rejects no relative path on the way to
`parent ++ t` does not change whether `parent ++ t` is emitted from this
entry. -/
theorem scanNode_exclude_irrelevant (pat : String → Bool)
    (excl : List (String → Bool)) (m : String → Bool) :
    ∀ (n : FSNode) (parent t : List String), t ≠ [] →
      (∀ k, 0 < k → k ≤ t.length →
        m (segPath (parent ++ t.take k)) = false) →
      ((parent ++ t) ∈ scanNode pat (excl ++ [m]) parent n ↔
        (parent ++ t) ∈ scanNode pat excl parent n)
  | .file nm content, parent, t, ht, hm => by
    by_cases hname : t = [nm]
    · subst hname
      have hm1 : m (segPath (parent ++ [nm])) = false := by
        simpa using hm 1 Nat.one_pos (by simp)
      simp only [scanNode, List.any_append, List.any_cons, List.any_nil,
        hm1, Bool.or_false]
    · have himp : ∀ (e : List (String → Bool)),
          (parent ++ t) ∉ scanNode pat e parent (.file nm content) := by
        intro e h
        simp only [scanNode] at h
        split_ifs at h
        · cases h
        · simp only [List.mem_singleton] at h
          exact hname (List.append_cancel_left h)
        · cases h
      simp [himp (excl ++ [m]), himp excl]
  | .dir nm children, parent, t, ht, hm => by
    match t, ht with
    | hd :: t', _ =>
      by_cases hname : hd = nm
      · subst hname
        have hm1 : m (segPath (parent ++ [hd])) = false := by
          have := hm 1 Nat.one_pos (by simp)
          simpa using this
        simp only [scanNode, List.any_append, List.any_cons, List.any_nil,
          hm1, Bool.or_false]
        by_cases hex : (excl.any fun mm => mm (segPath (parent ++ [hd]))) = true
        · simp [hex]
        · simp only [eq_false_of_ne_true hex, Bool.false_eq_true, if_false]
          match t' with
          | [] =>
            constructor <;> intro h <;> exact absurd (by simpa using h)
              (by simpa using scanForest_not_self pat _ children (parent ++ [hd]))
          | hd2 :: t'' =>
            have hrec := scanForest_exclude_irrelevant pat excl m children
              (parent ++ [hd]) (hd2 :: t'') (by simp) ?_
            · simpa [List.append_assoc] using hrec
            · intro k hk1 hk2
              have := hm (k + 1) (Nat.succ_pos _) (by simpa using hk2)
              simpa [List.take_succ_cons, List.append_assoc] using this
      · have himp : ∀ (e : List (String → Bool)),
            (parent ++ (hd :: t')) ∉ scanNode pat e parent (.dir nm children) := by
          intro e h
          obtain ⟨s, hs1, hs2, hs3, -⟩ :=
            scanNode_mem_shape pat e (.dir nm children) parent _ h
          have hst : s = hd :: t' := List.append_cancel_left hs3.symm
          subst hst
          simp only [List.head?_cons, Option.some.injEq, FSNode.name] at hs2
          exact hname hs2
        simp [himp (excl ++ [m]), himp excl]

/-- Forest version of `scanNode_exclude_irrelevant`. -/
theorem scanForest_exclude_irrelevant (pat : String → Bool)
    (excl : List (String → Bool)) (m : String → Bool) :
    ∀ (f : FSForest) (parent t : List String), t ≠ [] →
      (∀ k, 0 < k → k ≤ t.length →
        m (segPath (parent ++ t.take k)) = false) →
      ((parent ++ t) ∈ scanForest pat (excl ++ [m]) parent f ↔
        (parent ++ t) ∈ scanForest pat excl parent f)
  | .nil, parent, t, ht, hm => by simp [scanForest]
  | .cons n rest, parent, t, ht, hm => by
    simp only [scanForest, List.mem_append]
    exact or_congr (scanNode_exclude_irrelevant pat excl m n parent t ht hm)
      (scanForest_exclude_irrelevant pat excl m rest parent t ht hm)

end

/-- C9: an exclude pattern that matches a directory's relative path prunes
its subtree — no enumerated path lies at or below a path matched by any
exclude pattern — while paths whose own relative path and ancestors match
no added exclude pattern are unaffected by adding it: membership in the
walk output is unchanged. -/
theorem C9_prune_and_siblings :
    (∀ (pattern : String) (excludePatterns : List String) (forest : FSForest)
        (d fsegs : List String),
      (∃ p ∈ excludePatterns, globMatch p (segPath d) = true) →
      fsegs ∈ scanForest (globMatch pattern)
        (excludePatterns.map globMatch) [] forest →
      ¬(d ≠ [] ∧ d <+: fsegs)) ∧
    (∀ (pattern newPat : String) (excludePatterns : List String)
        (forest : FSForest) (fsegs : List String), fsegs ≠ [] →
      (∀ k, 0 < k → k ≤ fsegs.length →
        globMatch newPat (segPath (fsegs.take k)) = false) →
      (fsegs ∈ scanForest (globMatch pattern)
          ((excludePatterns ++ [newPat]).map globMatch) [] forest ↔
        fsegs ∈ scanForest (globMatch pattern)
          (excludePatterns.map globMatch) [] forest)) := by
  constructor
  · rintro pattern excludePatterns forest d fsegs ⟨p, hp, hpd⟩ hmem ⟨hd, hpre⟩
    obtain ⟨s, hs1, hseq, hs4⟩ :=
      scanForest_mem_shape _ _ forest [] fsegs hmem
    simp only [List.nil_append] at hseq
    subst hseq
    obtain ⟨u, hu⟩ := hpre
    have hdlen : 0 < d.length := List.length_pos.mpr hd
    have hdle : d.length ≤ fsegs.length := by
      have := congrArg List.length hu
      simp only [List.length_append] at this
      omega
    have htake : fsegs.take d.length = d := by
      rw [← hu, List.take_left]
    have hk := hs4 d.length hdlen hdle
    rw [List.nil_append, htake] at hk
    have hany : ((excludePatterns.map globMatch).any
        fun mm => mm (segPath d)) = true :=
      List.any_eq_true.mpr ⟨globMatch p, List.mem_map_of_mem _ hp, hpd⟩
    rw [hk] at hany
    cases hany
  · intro pattern newPat excludePatterns forest fsegs hne hm
    have h := scanForest_exclude_irrelevant (globMatch pattern)
      (excludePatterns.map globMatch) (globMatch newPat) forest [] fsegs hne
      (fun k hk1 hk2 => by simpa using hm k hk1 hk2)
    simpa [List.map_append] using h


/-- C9 witness: on a concrete tree, the pruning consequence for the
`node_modules` exclude and the sibling file `src/a.ts`, and membership
invariance when the `node_modules` exclude is added. -/
theorem C9_witness :
    (¬((["node_modules"] : List String) ≠ [] ∧
        ["node_modules"] <+: ["src", "a.ts"])) ∧
    ((["src", "a.ts"] : List String) ∈ scanForest (globMatch "**/*")
        ((([] : List String) ++ ["node_modules"]).map globMatch) [] w9tree ↔
      (["src", "a.ts"] : List String) ∈ scanForest (globMatch "**/*")
        (([] : List String).map globMatch) [] w9tree) :=
  ⟨C9_prune_and_siblings.1 "**/*" ["node_modules"] w9tree ["node_modules"]
      ["src", "a.ts"] ⟨"node_modules", by simp, by decide⟩ (by decide),
    C9_prune_and_siblings.2 "**/*" "node_modules" [] w9tree ["src", "a.ts"]
      (by decide) (fun k hk1 hk2 => by
        have h2 : k ≤ 2 := by simpa using hk2
        interval_cases k <;> decide)⟩

/-! ## Combinator facts for rendered `export const` lines -/

theorem eatLit_append (p rest : List Char) : eatLit p (p ++ rest) = some rest := by
  induction p with
  | nil => rfl
  | cons c cs ih => simp [eatLit, ih]

theorem dropWhile_cons_false {p : Char → Bool} {c : Char} (h : p c = false)
    (l : List Char) : (c :: l).dropWhile p = c :: l := by
  simp [List.dropWhile_cons, h]

theorem eatLit_head_ne {c d : Char} (h : (c == d) = false) (ps cs : List Char) :
    eatLit (c :: ps) (d :: cs) = none := by
  simp [eatLit, h]

theorem eatWS1_cons_of_ws {c : Char} (h : jsWS c = true) (l : List Char) :
    eatWS1 (c :: l) = some (l.dropWhile jsWS) := by
  simp [eatWS1, h]

theorem ws_enum {c : Char} (h : jsWS c = true) :
    c = ' ' ∨ c = '\t' ∨ c = '\x0d' ∨ c = '\n' := by
  simpa [jsWS, Char.isWhitespace, Bool.or_eq_true, decide_eq_true_eq,
    or_assoc] using h

theorem not_ws_of_wordChar {c : Char} (h : wordChar c = true) : jsWS c = false := by
  cases hw : jsWS c
  · rfl
  · rcases ws_enum hw with rfl | rfl | rfl | rfl <;> exact absurd h (by decide)

theorem not_ws_of_identStart {c : Char} (h : identStart c = true) :
    jsWS c = false := by
  cases hw : jsWS c
  · rfl
  · rcases ws_enum hw with rfl | rfl | rfl | rfl <;> exact absurd h (by decide)

theorem wordChar_of_upper {c : Char} (h : c.isUpper = true) : wordChar c = true := by
  simp [wordChar, Char.isAlpha, h]

theorem dropWhile_append_all {p : Char → Bool} :
    ∀ (t : List Char), t.all p = true → ∀ rest : List Char,
      (t ++ rest).dropWhile p = rest.dropWhile p := by
  intro t
  induction t with
  | nil => intro _ rest; rfl
  | cons c cs ih =>
    intro ht rest
    simp only [List.all_cons, Bool.and_eq_true] at ht
    simp [List.dropWhile_cons, ht.1, ih ht.2 rest]

theorem dottedRun_stop_paren (rest : List Char) :
    dottedRun ('(' :: rest) = ([], '(' :: rest) := by
  have h1 : identChar '(' = false := by decide
  have h2 : ('(' == '.') = false := by decide
  rw [dottedRun.eq_def]
  simp [h1, h2]

theorem dottedRun_append_all :
    ∀ (t : List Char), t.all identChar = true → ∀ rest : List Char,
      dottedRun (t ++ rest) =
        (t ++ (dottedRun rest).1, (dottedRun rest).2) := by
  intro t
  induction t with
  | nil => intro _ rest; simp
  | cons c cs ih =>
    intro ht rest
    simp only [List.all_cons, Bool.and_eq_true] at ht
    rw [List.cons_append, dottedRun.eq_def]
    simp [ht.1, ih ht.2 rest]

theorem dottedRun_dot (d : Char) (hd2 : identStart d = true) (M : List Char) :
    dottedRun ('.' :: d :: M) = ('.' :: d :: (dottedRun M).1, (dottedRun M).2) := by
  have key : dottedRun ('.' :: d :: M)
      = if identStart d then ('.' :: d :: (dottedRun M).1, (dottedRun M).2)
        else ([], '.' :: d :: M) := rfl
  rw [key, if_pos hd2]

theorem renderIds_cons (i : String) (ids : List String) :
    renderIds (i :: ids) = i.data ++ chainSep ids := by
  cases ids with
  | nil => simp [renderIds, chainSep]
  | cons j rest => simp [renderIds, chainSep]

theorem dottedRun_chain :
    ∀ (ids : List String), ids.all validIdent = true →
      ∀ (t : List Char), t.all identChar = true → ∀ R : List Char,
        dottedRun (t ++ chainSep ids ++ '(' :: R) =
          (t ++ chainSep ids, '(' :: R) := by
  intro ids
  induction ids with
  | nil =>
    intro _ t ht R
    simp only [chainSep, List.append_nil]
    rw [dottedRun_append_all t ht, dottedRun_stop_paren]
    simp
  | cons j ids2 ih =>
    intro hv t ht R
    simp only [List.all_cons, Bool.and_eq_true] at hv
    rcases hj : j.data with _ | ⟨d, u⟩
    · exact absurd hv.1 (by simp [validIdent, hj])
    · have hdu : identStart d = true ∧ u.all identChar = true := by
        simpa [validIdent, hj, Bool.and_eq_true] using hv.1
      have hstep : chainSep (j :: ids2) = '.' :: d :: (u ++ chainSep ids2) := by
        show ('.' :: renderIds (j :: ids2) : List Char)
            = '.' :: d :: (u ++ chainSep ids2)
        rw [renderIds_cons, hj]
        rfl
      rw [hstep, List.append_assoc, dottedRun_append_all t ht]
      have hrec2 := ih hv.2 u hdu.2 R
      simp only [List.append_assoc] at hrec2
      have hM : ('.' :: d :: (u ++ chainSep ids2)) ++ '(' :: R
          = '.' :: d :: (u ++ (chainSep ids2 ++ '(' :: R)) := by simp
      rw [hM, dottedRun_dot d hdu.1, hrec2]

theorem parseDotted_chain (ids : List String) (hne : ids ≠ [])
    (hv : ids.all validIdent = true) (R : List Char) :
    parseDotted (renderIds ids ++ '(' :: R) = some (renderIds ids, '(' :: R) := by
  cases ids with
  | nil => exact absurd rfl hne
  | cons i ids2 =>
    simp only [List.all_cons, Bool.and_eq_true] at hv
    rcases hd : i.data with _ | ⟨c, t⟩
    · exact absurd hv.1 (by simp [validIdent, hd])
    · have hct : identStart c = true ∧ t.all identChar = true := by
        simpa [validIdent, hd, Bool.and_eq_true] using hv.1
      have hrend : renderIds (i :: ids2) = c :: (t ++ chainSep ids2) := by
        rw [renderIds_cons, hd]; rfl
      rw [hrend]
      have hrun := dottedRun_chain ids2 hv.2 t hct.2 R
      simp only [List.cons_append, List.append_assoc] at hrun ⊢
      simp [parseDotted, hct.1, hrun]

theorem render_dropWhile (rest : List Char) :
    List.dropWhile jsWS
        (['e', 'x', 'p', 'o', 'r', 't', ' ', 'c', 'o', 'n', 's', 't', ' '] ++ rest)
      = ['e', 'x', 'p', 'o', 'r', 't', ' ', 'c', 'o', 'n', 's', 't', ' '] ++ rest := by
  show ('e' :: (['x', 'p', 'o', 'r', 't', ' ', 'c', 'o', 'n', 's', 't', ' '] ++ rest)).dropWhile jsWS = _
  exact dropWhile_cons_false (by decide) _

theorem render_after_export (rest : List Char) :
    eatLit ['e', 'x', 'p', 'o', 'r', 't']
        (['e', 'x', 'p', 'o', 'r', 't', ' ', 'c', 'o', 'n', 's', 't', ' '] ++ rest)
      = some ([' ', 'c', 'o', 'n', 's', 't', ' '] ++ rest) := by
  show eatLit ['e', 'x', 'p', 'o', 'r', 't']
      (['e', 'x', 'p', 'o', 'r', 't'] ++ ([' ', 'c', 'o', 'n', 's', 't', ' '] ++ rest)) = _
  exact eatLit_append _ _

theorem render_after_ws1 (rest : List Char) :
    eatWS1 ([' ', 'c', 'o', 'n', 's', 't', ' '] ++ rest)
      = some (['c', 'o', 'n', 's', 't', ' '] ++ rest) := by
  show eatWS1 (' ' :: (['c', 'o', 'n', 's', 't', ' '] ++ rest)) = _
  rw [eatWS1_cons_of_ws (by decide)]
  refine congrArg some ?_
  show ('c' :: (['o', 'n', 's', 't', ' '] ++ rest)).dropWhile jsWS = _
  exact dropWhile_cons_false (by decide) _

theorem render_not_reexport (rest : List Char) :
    isTypeReExportL
        (['e', 'x', 'p', 'o', 'r', 't', ' ', 'c', 'o', 'n', 's', 't', ' '] ++ rest)
      = false := by
  have c4 : eatLit ['t', 'y', 'p', 'e'] (['c', 'o', 'n', 's', 't', ' '] ++ rest) = none := by
    show eatLit ('t' :: ['y', 'p', 'e']) ('c' :: (['o', 'n', 's', 't', ' '] ++ rest)) = none
    exact eatLit_head_ne (by decide) _ _
  simp only [isTypeReExportL, render_dropWhile, render_after_export,
    render_after_ws1, c4, Option.some_bind, Option.none_bind,
    Option.bind_eq_bind, Option.isSome_none]

theorem render_not_typeExport (rest : List Char) :
    hasTypeExportL
        (['e', 'x', 'p', 'o', 'r', 't', ' ', 'c', 'o', 'n', 's', 't', ' '] ++ rest)
      = false := by
  have c4t : eatLit ['t', 'y', 'p', 'e'] (['c', 'o', 'n', 's', 't', ' '] ++ rest) = none := by
    show eatLit ('t' :: ['y', 'p', 'e']) ('c' :: (['o', 'n', 's', 't', ' '] ++ rest)) = none
    exact eatLit_head_ne (by decide) _ _
  have c4i : eatLit ['i', 'n', 't', 'e', 'r', 'f', 'a', 'c', 'e']
      (['c', 'o', 'n', 's', 't', ' '] ++ rest) = none := by
    show eatLit ('i' :: ['n', 't', 'e', 'r', 'f', 'a', 'c', 'e'])
        ('c' :: (['o', 'n', 's', 't', ' '] ++ rest)) = none
    exact eatLit_head_ne (by decide) _ _
  have c4e : eatLit ['e', 'n', 'u', 'm'] (['c', 'o', 'n', 's', 't', ' '] ++ rest) = none := by
    show eatLit ('e' :: ['n', 'u', 'm']) ('c' :: (['o', 'n', 's', 't', ' '] ++ rest)) = none
    exact eatLit_head_ne (by decide) _ _
  simp only [hasTypeExportL, typeExportKw, render_dropWhile,
    render_after_export, render_after_ws1, c4t, c4i, c4e, Option.some_bind,
    Option.none_bind, Option.bind_eq_bind, Option.isSome_none, Bool.or_self]

theorem render_not_braces (rest : List Char) :
    hasTypeExportInBracesL
        (['e', 'x', 'p', 'o', 'r', 't', ' ', 'c', 'o', 'n', 's', 't', ' '] ++ rest)
      = false := by
  have c4b : eatLit ['\x7b'] (['c', 'o', 'n', 's', 't', ' '] ++ rest) = none := by
    show eatLit ('\x7b' :: ([] : List Char)) ('c' :: (['o', 'n', 's', 't', ' '] ++ rest)) = none
    exact eatLit_head_ne (by decide) _ _
  have c4t : eatLit ['t', 'y', 'p', 'e'] (['c', 'o', 'n', 's', 't', ' '] ++ rest) = none := by
    show eatLit ('t' :: ['y', 'p', 'e']) ('c' :: (['o', 'n', 's', 't', ' '] ++ rest)) = none
    exact eatLit_head_ne (by decide) _ _
  simp only [hasTypeExportInBracesL, render_dropWhile, render_after_export,
    render_after_ws1, c4b, c4t, Option.some_bind, Option.none_bind,
    Option.bind_eq_bind, Option.isSome_none, Bool.or_self]

theorem eatConstHeadAny_render (name : String) (hname : validWord name = true)
    (tail : List Char) :
    eatConstHeadAny (['e', 'x', 'p', 'o', 'r', 't', ' ', 'c', 'o', 'n', 's', 't', ' ']
        ++ (name.data ++ ([' ', '=', ' '] ++ tail)))
      = some ('=', ' ' :: tail) := by
  rcases hd : name.data with _ | ⟨c, t⟩
  · exact absurd hname (by simp [validWord, hd])
  · have hct : wordChar c = true ∧ t.all wordChar = true := by
      simpa [validWord, hd, Bool.and_eq_true] using hname
    have s3 : eatLit ['c', 'o', 'n', 's', 't'] (['c', 'o', 'n', 's', 't', ' ']
          ++ ((c :: t) ++ ([' ', '=', ' '] ++ tail)))
        = some (' ' :: ((c :: t) ++ ([' ', '=', ' '] ++ tail))) := by
      show eatLit ['c', 'o', 'n', 's', 't'] (['c', 'o', 'n', 's', 't']
          ++ (' ' :: ((c :: t) ++ ([' ', '=', ' '] ++ tail)))) = _
      exact eatLit_append _ _
    have s4 : eatWS1 (' ' :: ((c :: t) ++ ([' ', '=', ' '] ++ tail)))
        = some ((c :: t) ++ ([' ', '=', ' '] ++ tail)) := by
      rw [eatWS1_cons_of_ws (by decide)]
      refine congrArg some ?_
      show (c :: (t ++ ([' ', '=', ' '] ++ tail))).dropWhile jsWS
          = c :: (t ++ ([' ', '=', ' '] ++ tail))
      exact dropWhile_cons_false (not_ws_of_wordChar hct.1) _
    have s5 : eatWord1 ((c :: t) ++ ([' ', '=', ' '] ++ tail))
        = some (' ' :: '=' :: ' ' :: tail) := by
      show eatWord1 (c :: (t ++ ([' ', '=', ' '] ++ tail))) = _
      simp only [eatWord1, hct.1, if_true]
      refine congrArg some ?_
      rw [dropWhile_append_all t hct.2]
      show (' ' :: ('=' :: ' ' :: tail)).dropWhile wordChar = ' ' :: '=' :: ' ' :: tail
      exact dropWhile_cons_false (by decide) _
    have s6 : eatWS (' ' :: '=' :: ' ' :: tail) = '=' :: ' ' :: tail := by
      have hws : jsWS ' ' = true := by decide
      have hne : jsWS '=' = false := by decide
      simp [eatWS, List.dropWhile_cons, hws, hne]
    simp only [eatConstHeadAny, render_after_export, render_after_ws1,
      s3, s4, s5, Option.some_bind, Option.bind_eq_bind, s6]

theorem funcCallCapAt_render (name : String) (hname : validWord name = true)
    (ids : List String) (hne : ids ≠ []) (hv : ids.all validIdent = true)
    (R : List Char) :
    funcCallCapAt (['e', 'x', 'p', 'o', 'r', 't', ' ', 'c', 'o', 'n', 's', 't', ' ']
        ++ (name.data ++ ([' ', '=', ' '] ++ (renderIds ids ++ '(' :: R))))
      = some (renderIds ids) := by
  have hhead := eatConstHeadAny_render name hname (renderIds ids ++ '(' :: R)
  have hdrop : (renderIds ids ++ '(' :: R).dropWhile jsWS
      = renderIds ids ++ '(' :: R := by
    cases ids with
    | nil => exact absurd rfl hne
    | cons i ids2 =>
      simp only [List.all_cons, Bool.and_eq_true] at hv
      rcases hd : i.data with _ | ⟨c, t⟩
      · exact absurd hv.1 (by simp [validIdent, hd])
      · have hct : identStart c = true := by
          have := hv.1
          simp only [validIdent, hd, Bool.and_eq_true] at this
          exact this.1
        rw [renderIds_cons, hd]
        simp only [List.cons_append]
        exact dropWhile_cons_false (not_ws_of_identStart hct) _
  have hws : jsWS ' ' = true := by decide
  simp only [funcCallCapAt, hhead, List.dropWhile_cons, hws, if_true, hdrop,
    parseDotted_chain ids hne hv R]
  have hp : jsWS '(' = false := by decide
  simp [List.dropWhile_cons, hp]

theorem scanSuffixes_of_hit (f : List Char → Bool) (l : List Char)
    (h : f l = true) : scanSuffixes f l = true := by
  cases l with
  | nil => simpa [scanSuffixes] using h
  | cons c cs => simp [scanSuffixes, h]

theorem scanSuffixesFirst_of_hit {α : Type} (f : List Char → Option α)
    (l : List Char) (a : α) (h : f l = some a) :
    scanSuffixesFirst f l = some a := by
  cases l with
  | nil => simpa [scanSuffixesFirst] using h
  | cons c cs => simp [scanSuffixesFirst, h]

theorem newExprAt_render (name : String) (hname : validWord name = true)
    (cname : String) (u : Char) (cr : List Char) (hcd : cname.data = u :: cr)
    (hu : u.isUpper = true) (M : List Char) :
    newExprAt (['e', 'x', 'p', 'o', 'r', 't', ' ', 'c', 'o', 'n', 's', 't', ' ']
        ++ (name.data ++ ([' ', '=', ' ']
          ++ (['n', 'e', 'w', ' '] ++ (cname.data ++ M))))) = true := by
  have hhead := eatConstHeadAny_render name hname
    (['n', 'e', 'w', ' '] ++ (cname.data ++ M))
  have h1 : newCoreAt ('n' :: 'e' :: 'w' :: ' ' :: (cname.data ++ M)) = true := by
    rw [hcd, List.cons_append]
    have e : eatLit ['n', 'e', 'w'] ('n' :: 'e' :: 'w' :: ' ' :: u :: (cr ++ M))
        = some (' ' :: u :: (cr ++ M)) := by
      show eatLit ['n', 'e', 'w'] (['n', 'e', 'w'] ++ (' ' :: u :: (cr ++ M))) = _
      exact eatLit_append _ _
    have hws : jsWS ' ' = true := by decide
    have hnu : jsWS u = false := not_ws_of_wordChar (wordChar_of_upper hu)
    simp only [newCoreAt, e, hws, Bool.true_and, List.dropWhile_cons, hnu,
      Bool.false_eq_true, if_false, hu]
  have h2 : newScan '=' (' ' :: (['n', 'e', 'w', ' '] ++ (cname.data ++ M)))
      = true := by
    show newScan '=' (' ' :: 'n' :: 'e' :: 'w' :: ' ' :: (cname.data ++ M)) = true
    have hwsp : wordChar ' ' = false := by decide
    have step : ∀ (p c : Char) (rest : List Char),
        newScan p (c :: rest)
          = ((!wordChar p && newCoreAt (c :: rest)) || newScan c rest) :=
      fun p c rest => rfl
    rw [step, step, h1]
    simp [hwsp]
  simp only [newExprAt, hhead]
  exact h2

theorem arrowLookahead5_no_arrow :
    ∀ (n : Nat) (ls : List (List Char)),
      (∀ l ∈ ls, hasSubChars l ['=', '>'] = false) →
      arrowLookahead5 n ls = false := by
  intro n
  induction n with
  | zero => intro ls _; cases ls <;> rfl
  | succ n ih =>
    intro ls h
    cases ls with
    | nil => rfl
    | cons l rest =>
      have h0 : hasSubChars l ['=', '>'] = false := h l (by simp)
      simp only [arrowLookahead5, h0, Bool.false_eq_true, if_false]
      split_ifs
      · rfl
      · exact ih rest (fun x hx => h x (by simp [hx]))

theorem isTypesFile_of_inTypesDir {p : String} (h : isInTypesDir p = true) :
    isTypesFile p = true := by
  simp only [isInTypesDir] at h
  simp [isTypesFile, h]

/-- Every violation the scan driver emits comes from `f` at some position,
with the lookahead lines being the suffix after that position. -/
theorem scanLinesGo_mem_imp
    (f : Nat → List Char → List Char → List (List Char) → Option Violation)
    (i : Nat) (prev : List Char) (ls : List (List Char)) (v : Violation)
    (h : v ∈ scanLinesGo f i prev ls) :
    ∃ k pv l rest, i ≤ k ∧ k < i + ls.length ∧
      ls.drop (k - i) = l :: rest ∧ f k pv l rest = some v := by
  induction ls generalizing i prev with
  | nil => cases h
  | cons l0 rest0 ih =>
    simp only [scanLinesGo] at h
    rcases List.mem_append.mp h with h | h
    · refine ⟨i, prev, l0, rest0, le_refl i,
        by simp only [List.length_cons]; omega, by simp, ?_⟩
      cases hfv : f i prev l0 rest0 with
      | none => rw [hfv] at h; cases h
      | some w =>
        rw [hfv] at h
        simp only [Option.toList_some, List.mem_singleton] at h
        subst h
        rfl
    · obtain ⟨k, pv, l, rest, hk1, hk2, hk3, hk4⟩ := ih (i + 1) l0 h
      refine ⟨k, pv, l, rest, by omega,
        by simp only [List.length_cons]; omega, ?_, hk4⟩
      have hsub : k - i = (k - (i + 1)) + 1 := by omega
      rw [hsub, List.drop_succ_cons]
      exact hk3

theorem scanLineMain_line {path : String} {isValid : Bool} {k : Nat}
    {pv l : List Char} {rest : List (List Char)} {v : Violation}
    (h : scanLineMain path isValid k pv l rest = some v) : v.line = k + 1 := by
  simp only [scanLineMain] at h
  split_ifs at h <;>
    first
      | exact Option.noConfusion h
      | (injection h with h2; subst h2; rfl)

/-- At a line whose shape rules out the three type-export matchers and whose
initializer is classified runtime-constructed, the main scan branch pushes
nothing. -/
theorem scanLineMain_none_of_runtime (path : String) (isValid : Bool) (k : Nat)
    (pv l : List Char) (rest : List (List Char))
    (h1 : isTypeReExportL l = false) (h2 : hasTypeExportL l = false)
    (h3 : hasTypeExportInBracesL l = false)
    (h4 : isRuntimeConstExport l rest = true) :
    scanLineMain path isValid k pv l rest = none := by
  simp only [scanLineMain, h1, h2, h3, h4, Bool.false_and, Bool.false_eq_true,
    if_false, if_true]
  split_ifs <;> rfl

theorem renderConstLine_eq (name : String) (init : RuntimeInit) :
    renderConstLine name init =
      ['e', 'x', 'p', 'o', 'r', 't', ' ', 'c', 'o', 'n', 's', 't', ' ']
        ++ (name.data ++ ([' ', '=', ' '] ++ (renderInit init ++ [';']))) := by
  simp [renderConstLine]

theorem renderConstLine_call_eq (name : String) (ids : List String)
    (args : String) :
    renderConstLine name (.call ids args) =
      ['e', 'x', 'p', 'o', 'r', 't', ' ', 'c', 'o', 'n', 's', 't', ' ']
        ++ (name.data ++ ([' ', '=', ' ']
          ++ (renderIds ids ++ '(' :: (args.data ++ [')', ';'])))) := by
  simp [renderConstLine, renderInit]

theorem renderConstLine_new_eq (name cname args : String) :
    renderConstLine name (.newExpr cname args) =
      ['e', 'x', 'p', 'o', 'r', 't', ' ', 'c', 'o', 'n', 's', 't', ' ']
        ++ (name.data ++ ([' ', '=', ' ']
          ++ (['n', 'e', 'w', ' ']
            ++ (cname.data ++ ('(' :: (args.data ++ [')', ';'])))))) := by
  simp [renderConstLine, renderInit]

/-- C6: every const export whose initializer is a `new X(...)` expression or
a call whose dotted-chain callee is not a primitive-wrapper name, with no
arrow marker on the line or in the lookahead window, is classified
runtime-constructed, and in a non-type-module file the scan reports no
violation at that line. -/
theorem C6_runtime_constructed (path name : String) (init : RuntimeInit)
    (pre nextLines : List (List Char))
    (hname : validWord name = true) (hinit : validInit init = true)
    (hnoarrow : hasSubChars (renderConstLine name init) ['=', '>'] = false)
    (hnext : ∀ l ∈ nextLines, hasSubChars l ['=', '>'] = false)
    (hpath : isTypesFile path = false) :
    isRuntimeConstExport (renderConstLine name init) nextLines = true ∧
    ∀ v ∈ scanFileForTypeExports path
        (pre ++ renderConstLine name init :: nextLines),
      v.line ≠ pre.length + 1 := by
  have hrt : isRuntimeConstExport (renderConstLine name init) nextLines = true := by
    cases init with
    | newExpr cname args =>
      rcases hcd : cname.data with _ | ⟨u, cr⟩
      · exact absurd hinit (by simp [validInit, hcd])
      · have hu : u.isUpper = true := by
          have := hinit
          simp only [validInit, hcd] at this
          exact this
        have hA : newExprAt (renderConstLine name (.newExpr cname args)) = true := by
          rw [renderConstLine_new_eq]
          exact newExprAt_render name hname cname u cr hcd hu _
        have hscan : scanSuffixes newExprAt
            (renderConstLine name (.newExpr cname args)) = true :=
          scanSuffixes_of_hit _ _ hA
        simp [isRuntimeConstExport, hscan]
    | call ids args =>
      have hsplit := hinit
      simp only [validInit, Bool.and_eq_true, Bool.not_eq_true'] at hsplit
      obtain ⟨⟨hne0, hall⟩, hcont⟩ := hsplit
      have hne : ids ≠ [] := by
        cases ids with
        | nil => simp at hne0
        | cons a b => simp
      have hcapAt : funcCallCapAt (renderConstLine name (.call ids args))
          = some (renderIds ids) := by
        rw [renderConstLine_call_eq]
        exact funcCallCapAt_render name hname ids hne hall _
      have hcap : funcCallCapture (renderConstLine name (.call ids args))
          = some (renderIds ids) :=
        scanSuffixesFirst_of_hit _ _ _ hcapAt
      have h5 : arrowLookahead5 5 nextLines = false :=
        arrowLookahead5_no_arrow 5 nextLines hnext
      by_cases hnn : scanSuffixes newExprAt
          (renderConstLine name (.call ids args)) = true
      · simp [isRuntimeConstExport, hnn]
      · have hnn2 : scanSuffixes newExprAt
            (renderConstLine name (.call ids args)) = false := by
          cases hh : scanSuffixes newExprAt (renderConstLine name (.call ids args))
          · rfl
          · exact absurd hh hnn
        simp [isRuntimeConstExport, hnn2, hcap, hcont, hnoarrow, h5]
        exact Or.inl (by simpa using hcont)
  refine ⟨hrt, ?_⟩
  have n1 : isTypeReExportL (renderConstLine name init) = false := by
    rw [renderConstLine_eq]; exact render_not_reexport _
  have n2 : hasTypeExportL (renderConstLine name init) = false := by
    rw [renderConstLine_eq]; exact render_not_typeExport _
  have n3 : hasTypeExportInBracesL (renderConstLine name init) = false := by
    rw [renderConstLine_eq]; exact render_not_braces _
  intro v hv hline
  have hdir : isInTypesDir path = false := by
    cases hid : isInTypesDir path
    · rfl
    · exact absurd (isTypesFile_of_inTypesDir hid) (by simp [hpath])
  simp only [scanFileForTypeExports, hdir, Bool.false_eq_true, if_false] at hv
  obtain ⟨k, pv, l, rest, hk1, hk2, hk3, hk4⟩ :=
    scanLinesGo_mem_imp _ 0 [] _ v hv
  have hvk : v.line = k + 1 := scanLineMain_line hk4
  have hkp : k = pre.length := by omega
  subst hkp
  simp only [Nat.sub_zero] at hk3
  rw [List.drop_left] at hk3
  injection hk3 with hl hrest
  rw [← hl, ← hrest] at hk4
  rw [scanLineMain_none_of_runtime path (isTypesFile path) pre.length pv
    (renderConstLine name init) nextLines n1 n2 n3 hrt] at hk4
  exact Option.noConfusion hk4

/-- C6 witness: scenario B — `client.ts` containing
`export const client = http.create({ baseURL: 'x' });` is classified
runtime-constructed and the scan reports no violation at that line. -/
theorem C6_witness :
    isRuntimeConstExport (renderConstLine "client" c6Init) [] = true ∧
    ∀ v ∈ scanFileForTypeExports "client.ts"
        ([] ++ renderConstLine "client" c6Init :: []),
      v.line ≠ List.length ([] : List (List Char)) + 1 :=
  C6_runtime_constructed "client.ts" "client" c6Init [] []
    (by decide) (by decide) (by decide)
    (by intro l hl; cases hl) (by decide)

/-! generic suffix machinery -/

theorem scanSuffixes_true_imp {f : List Char → Bool} :
    ∀ {l : List Char}, scanSuffixes f l = true → ∃ s, s <:+ l ∧ f s = true := by
  intro l
  induction l with
  | nil => intro h; exact ⟨[], List.suffix_refl _, h⟩
  | cons c cs ih =>
    intro h
    simp only [scanSuffixes, Bool.or_eq_true] at h
    rcases h with h | h
    · exact ⟨c :: cs, List.suffix_refl _, h⟩
    · obtain ⟨s, hs, hf⟩ := ih h
      exact ⟨s, hs.trans (List.suffix_cons c cs), hf⟩

theorem scanSuffixes_of_suffix_hit {f : List Char → Bool} {s l : List Char}
    (hs : s <:+ l) (hf : f s = true) : scanSuffixes f l = true := by
  obtain ⟨u, rfl⟩ := hs
  induction u with
  | nil => simpa using scanSuffixes_of_hit f s hf
  | cons c cs ih =>
    simp only [List.cons_append, scanSuffixes, List.append_eq, ih, Bool.or_true]

theorem scanSuffixesFirst_none {α : Type} {f : List Char → Option α}
    {l : List Char} (h : ∀ s, s <:+ l → f s = none) :
    scanSuffixesFirst f l = none := by
  induction l with
  | nil =>
    simp only [scanSuffixesFirst]
    exact h [] (List.suffix_refl _)
  | cons c cs ih =>
    simp only [scanSuffixesFirst, h (c :: cs) (List.suffix_refl _)]
    exact ih (fun s hs => h s (hs.trans (List.suffix_cons c cs)))

theorem eatLit_startsWith : ∀ (p cs r : List Char), eatLit p cs = some r →
    startsWithChars p cs = true := by
  intro p
  induction p with
  | nil => intro cs r _; rfl
  | cons a ps ih =>
    intro cs r h
    cases cs with
    | nil => exact Option.noConfusion h
    | cons c cs2 =>
      by_cases hac : (a == c) = true
      · simp only [eatLit, hac, if_true] at h
        simp only [startsWithChars, hac, Bool.true_and]
        exact ih cs2 r h
      · simp only [eatLit, hac] at h
        simp at hac
        simp [hac] at h

theorem eatLit_mem : ∀ (p cs r : List Char), eatLit p cs = some r →
    ∀ a ∈ p, a ∈ cs := by
  intro p
  induction p with
  | nil => intro cs r _ a ha; cases ha
  | cons b ps ih =>
    intro cs r h a ha
    cases cs with
    | nil => exact Option.noConfusion h
    | cons c cs2 =>
      by_cases hac : (b == c) = true
      · simp only [eatLit, hac, if_true] at h
        rcases List.mem_cons.mp ha with rfl | ha2
        · simp only [beq_iff_eq] at hac
          subst hac
          exact List.mem_cons_self _ _
        · exact List.mem_cons_of_mem _ (ih cs2 r h a ha2)
      · simp only [eatLit, hac] at h
        simp at h

theorem eatLit_some_suffix : ∀ (p cs r : List Char), eatLit p cs = some r →
    r <:+ cs := by
  intro p
  induction p with
  | nil =>
    intro cs r h
    simp only [eatLit, Option.some.injEq] at h
    subst h
    exact List.suffix_refl _
  | cons b ps ih =>
    intro cs r h
    cases cs with
    | nil => exact Option.noConfusion h
    | cons c cs2 =>
      by_cases hac : (b == c) = true
      · simp only [eatLit, hac, if_true] at h
        exact (ih cs2 r h).trans (List.suffix_cons c cs2)
      · simp only [eatLit, hac] at h
        simp at h

theorem dropWhile_suffix (p : Char → Bool) (l : List Char) :
    l.dropWhile p <:+ l := by
  induction l with
  | nil => exact List.suffix_refl _
  | cons c cs ih =>
    rw [List.dropWhile_cons]
    split_ifs
    · exact ih.trans (List.suffix_cons c cs)
    · exact List.suffix_refl _

theorem mem_of_suffix {s l : List Char} (hs : s <:+ l) {c : Char}
    (hc : c ∈ s) : c ∈ l :=
  hs.sublist.subset hc

theorem hasSub_of_suffix_startsWith :
    ∀ {l s p : List Char}, s <:+ l → startsWithChars p s = true →
      hasSubChars l p = true := by
  intro l
  induction l with
  | nil =>
    intro s p hs h
    have : s = [] := List.suffix_nil.mp hs
    subst this
    cases p with
    | nil => rfl
    | cons a ps => exact Bool.noConfusion h
  | cons c cs ih =>
    intro s p hs h
    rcases List.suffix_cons_iff.mp hs with rfl | hs2
    · simp only [hasSubChars, h, Bool.true_or]
    · simp only [hasSubChars, ih hs2 h, Bool.or_true]

theorem hasSub_head_mem : ∀ (l : List Char) (c : Char) (p : List Char),
    hasSubChars l (c :: p) = true → c ∈ l := by
  intro l
  induction l with
  | nil => intro c p h; exact Bool.noConfusion h
  | cons d ds ih =>
    intro c p h
    simp only [hasSubChars, Bool.or_eq_true] at h
    rcases h with h | h
    · simp only [startsWithChars, Bool.and_eq_true, beq_iff_eq] at h
      exact List.mem_cons.mpr (Or.inl h.1)
    · exact List.mem_cons_of_mem _ (ih c p h)

theorem hasSub_mono_suffix {s l p : List Char} (hs : s <:+ l)
    (h : hasSubChars s p = true) : hasSubChars l p = true := by
  obtain ⟨u, rfl⟩ := hs
  induction u with
  | nil => simpa using h
  | cons c cs ih =>
    simp only [List.cons_append, hasSubChars, List.append_eq, ih, Bool.or_true]

theorem suffix_append_cases {s a b : List Char} (h : s <:+ a ++ b) :
    s <:+ b ∨ ∃ t, t <:+ a ∧ t ≠ [] ∧ s = t ++ b := by
  induction a with
  | nil => exact Or.inl (by simpa using h)
  | cons c a2 ih =>
    obtain ⟨u, hu⟩ := h
    cases u with
    | nil =>
      right
      refine ⟨c :: a2, List.suffix_refl _, by simp, ?_⟩
      simpa using hu
    | cons d u2 =>
      simp only [List.cons_append, List.cons.injEq] at hu
      rcases ih ⟨u2, hu.2⟩ with h2 | ⟨t, ht1, ht2, ht3⟩
      · exact Or.inl h2
      · exact Or.inr ⟨t, ht1.trans (List.suffix_cons c a2), ht2, ht3⟩

/-! matcher-implication lemmas -/

theorem eatWS1_some_suffix {cs r : List Char} (h : eatWS1 cs = some r) : r <:+ cs := by
  cases cs with
  | nil => exact Option.noConfusion h
  | cons c rest =>
    simp only [eatWS1] at h
    split_ifs at h
    injection h with h2
    subst h2
    exact (dropWhile_suffix _ _).trans (List.suffix_cons c rest)

theorem eatWord1_some_suffix {cs r : List Char} (h : eatWord1 cs = some r) : r <:+ cs := by
  cases cs with
  | nil => exact Option.noConfusion h
  | cons c rest =>
    simp only [eatWord1] at h
    split_ifs at h
    injection h with h2
    subst h2
    exact (dropWhile_suffix _ _).trans (List.suffix_cons c rest)

theorem eatConstHeadAny_some_suffix {cs : List Char} {sep : Char} {r : List Char}
    (h : eatConstHeadAny cs = some (sep, r)) : r <:+ cs := by
  simp only [eatConstHeadAny, Option.bind_eq_bind] at h
  cases h1 : eatLit "export".data cs with
  | none => rw [h1] at h; exact Option.noConfusion h
  | some r1 =>
    rw [h1] at h
    simp only [Option.some_bind] at h
    cases h2 : eatWS1 r1 with
    | none => rw [h2] at h; exact Option.noConfusion h
    | some r2 =>
      rw [h2] at h
      simp only [Option.some_bind] at h
      cases h3 : eatLit "const".data r2 with
      | none => rw [h3] at h; exact Option.noConfusion h
      | some r3 =>
        rw [h3] at h
        simp only [Option.some_bind] at h
        cases h4 : eatWS1 r3 with
        | none => rw [h4] at h; exact Option.noConfusion h
        | some r4 =>
          rw [h4] at h
          simp only [Option.some_bind] at h
          cases h5 : eatWord1 r4 with
          | none => rw [h5] at h; exact Option.noConfusion h
          | some r5 =>
            rw [h5] at h
            simp only [Option.some_bind] at h
            have hr : r <:+ eatWS r5 := by
              split at h
              · rename_i rest6 heq
                injection h with h6
                injection h6 with ha hb
                subst hb
                rw [heq]
                exact List.suffix_cons _ _
              · rename_i rest6 heq
                injection h with h6
                injection h6 with ha hb
                subst hb
                rw [heq]
                exact List.suffix_cons _ _
              · exact Option.noConfusion h
            exact hr.trans ((dropWhile_suffix _ _).trans
              ((eatWord1_some_suffix h5).trans
                ((eatWS1_some_suffix h4).trans
                  ((eatLit_some_suffix _ _ _ h3).trans
                    ((eatWS1_some_suffix h2).trans
                      (eatLit_some_suffix _ _ _ h1))))))

theorem eatConstHeadEq_some_suffix {cs r : List Char}
    (h : eatConstHeadEq cs = some r) : r <:+ cs := by
  simp only [eatConstHeadEq, Option.bind_eq_bind] at h
  cases h1 : eatLit "export".data cs with
  | none => rw [h1] at h; exact Option.noConfusion h
  | some r1 =>
    rw [h1] at h
    simp only [Option.some_bind] at h
    cases h2 : eatWS1 r1 with
    | none => rw [h2] at h; exact Option.noConfusion h
    | some r2 =>
      rw [h2] at h
      simp only [Option.some_bind] at h
      cases h3 : eatLit "const".data r2 with
      | none => rw [h3] at h; exact Option.noConfusion h
      | some r3 =>
        rw [h3] at h
        simp only [Option.some_bind] at h
        cases h4 : eatWS1 r3 with
        | none => rw [h4] at h; exact Option.noConfusion h
        | some r4 =>
          rw [h4] at h
          simp only [Option.some_bind] at h
          cases h5 : eatWord1 r4 with
          | none => rw [h5] at h; exact Option.noConfusion h
          | some r5 =>
            rw [h5] at h
            simp only [Option.some_bind] at h
            have hr : r <:+ eatWS r5 := by
              split at h
              · rename_i rest6 heq
                injection h with h6
                subst h6
                rw [heq]
                exact List.suffix_cons _ _
              · exact Option.noConfusion h
            exact hr.trans ((dropWhile_suffix _ _).trans
              ((eatWord1_some_suffix h5).trans
                ((eatWS1_some_suffix h4).trans
                  ((eatLit_some_suffix _ _ _ h3).trans
                    ((eatWS1_some_suffix h2).trans
                      (eatLit_some_suffix _ _ _ h1))))))

theorem arrowBranchA_gt {R : List Char} (h : arrowBranchA R = true) : '>' ∈ R := by
  simp only [arrowBranchA] at h
  split at h
  · rename_i r2 heq1
    split at h
    · rename_i r3 heq2
      rw [Option.isSome_iff_exists] at h
      obtain ⟨rr, hrr⟩ := h
      have hmem : '>' ∈ eatWS r3 := eatLit_mem _ _ _ hrr '>' (by decide)
      have c1 : eatWS r3 <:+ r3 := dropWhile_suffix _ _
      have c2 : r3 <:+ r2.dropWhile (· != ')') := by
        rw [heq2]; exact List.suffix_cons _ _
      have c3 : r2.dropWhile (· != ')') <:+ r2 := dropWhile_suffix _ _
      have c4 : r2 <:+ R.dropWhile jsWS := by
        rw [heq1]; exact List.suffix_cons _ _
      have c5 : R.dropWhile jsWS <:+ R := dropWhile_suffix _ _
      exact mem_of_suffix (c1.trans (c2.trans (c3.trans (c4.trans c5)))) hmem
    · exact Bool.noConfusion h
  · exact Bool.noConfusion h

theorem arrowBranchB_gt {R : List Char} (h : arrowBranchB R = true) : '>' ∈ R := by
  simp only [arrowBranchB, Bool.and_eq_true] at h
  obtain ⟨h1, h2⟩ := h
  split at h2
  · rename_i rest heq
    have hmem : '>' ∈ R.dropWhile (· != '=') := by
      rw [heq]; exact List.mem_cons_of_mem _ (List.mem_cons_self _ _)
    exact mem_of_suffix (dropWhile_suffix _ _) hmem
  · exact Bool.noConfusion h2

theorem funcArrowAt_gt {cs : List Char} (h : funcArrowAt cs = true) : '>' ∈ cs := by
  simp only [funcArrowAt] at h
  cases h1 : eatConstHeadEq cs with
  | none => rw [h1] at h; exact Bool.noConfusion h
  | some R =>
    rw [h1] at h
    simp only [Bool.or_eq_true] at h
    have hsuf := eatConstHeadEq_some_suffix h1
    rcases h with h | h
    · exact mem_of_suffix hsuf (arrowBranchA_gt h)
    · exact mem_of_suffix hsuf (arrowBranchB_gt h)

theorem asyncTail_gt {R : List Char} (h : asyncTail R = true) : '>' ∈ R := by
  cases R with
  | nil => exact Bool.noConfusion h
  | cons c rest =>
    simp only [asyncTail, Bool.and_eq_true, Bool.or_eq_true] at h
    rcases h.2 with h2 | h2
    · exact List.mem_cons_of_mem _ (arrowBranchA_gt h2)
    · have h3 := h2.2
      split at h3
      · rename_i rest2 heq
        have hmem : '>' ∈ (c :: rest).dropWhile (· != '=') := by
          rw [heq]; exact List.mem_cons_of_mem _ (List.mem_cons_self _ _)
        exact mem_of_suffix (dropWhile_suffix _ _) hmem
      · exact Bool.noConfusion h3

theorem funcAsyncArrowAt_gt {cs : List Char} (h : funcAsyncArrowAt cs = true) :
    '>' ∈ cs := by
  simp only [funcAsyncArrowAt] at h
  split at h
  · rename_i R heq1
    split at h
    · rename_i r heq2
      have hr : r <:+ cs :=
        ((eatLit_some_suffix _ _ _ heq2).trans (dropWhile_suffix _ _)).trans
          (eatConstHeadEq_some_suffix heq1)
      exact mem_of_suffix hr (asyncTail_gt h)
    · exact Bool.noConfusion h
  · exact Bool.noConfusion h

theorem funcFunctionAt_sub {cs : List Char} (h : funcFunctionAt cs = true) :
    hasSubChars cs ['f', 'u', 'n', 'c', 't', 'i', 'o', 'n'] = true := by
  simp only [funcFunctionAt] at h
  cases h1 : eatConstHeadEq cs with
  | none => rw [h1] at h; exact Bool.noConfusion h
  | some R =>
    rw [h1] at h
    rw [Option.isSome_iff_exists] at h
    obtain ⟨rr, hrr⟩ := h
    exact hasSub_of_suffix_startsWith
      ((dropWhile_suffix _ _).trans (eatConstHeadEq_some_suffix h1))
      (eatLit_startsWith _ _ _ hrr)

theorem funcClassAt_sub {cs : List Char} (h : funcClassAt cs = true) :
    hasSubChars cs ['c', 'l', 'a', 's', 's'] = true := by
  simp only [funcClassAt] at h
  cases h1 : eatConstHeadEq cs with
  | none => rw [h1] at h; exact Bool.noConfusion h
  | some R =>
    rw [h1] at h
    rw [Option.isSome_iff_exists] at h
    obtain ⟨rr, hrr⟩ := h
    exact hasSub_of_suffix_startsWith
      ((dropWhile_suffix _ _).trans (eatConstHeadEq_some_suffix h1))
      (eatLit_startsWith _ _ _ hrr)

theorem multiLineParenAt_paren {cs : List Char} (h : multiLineParenAt cs = true) :
    '(' ∈ cs := by
  simp only [multiLineParenAt] at h
  split at h
  · rename_i R heq1
    split at h
    · rename_i r2 heq2
      have hmem : '(' ∈ eatWS R := by
        rw [heq2]; exact List.mem_cons_self _ _
      exact mem_of_suffix ((dropWhile_suffix _ _).trans
        (eatConstHeadEq_some_suffix heq1)) hmem
    · exact Bool.noConfusion h
  · exact Bool.noConfusion h

theorem newCoreAt_startsWith {cs : List Char} (h : newCoreAt cs = true) :
    startsWithChars ['n', 'e', 'w'] cs = true := by
  simp only [newCoreAt] at h
  split at h
  · rename_i rr c r2 heq
    exact eatLit_startsWith _ _ _ heq
  · exact Bool.noConfusion h

theorem newScan_sub : ∀ (l : List Char) (prev : Char), newScan prev l = true →
    hasSubChars l ['n', 'e', 'w'] = true := by
  intro l
  induction l with
  | nil => intro prev h; exact Bool.noConfusion h
  | cons c rest ih =>
    intro prev h
    have key : newScan prev (c :: rest)
        = ((!wordChar prev && newCoreAt (c :: rest)) || newScan c rest) := rfl
    rw [key] at h
    simp only [Bool.or_eq_true, Bool.and_eq_true] at h
    rcases h with ⟨h1, h2⟩ | h
    · exact hasSub_of_suffix_startsWith (List.suffix_refl _) (newCoreAt_startsWith h2)
    · simp only [hasSubChars, ih c h, Bool.or_true]

theorem newExprAt_sub {cs : List Char} (h : newExprAt cs = true) :
    hasSubChars cs ['n', 'e', 'w'] = true := by
  simp only [newExprAt] at h
  cases h1 : eatConstHeadAny cs with
  | none => rw [h1] at h; exact Bool.noConfusion h
  | some pr =>
    obtain ⟨sep, rest⟩ := pr
    rw [h1] at h
    exact hasSub_mono_suffix (eatConstHeadAny_some_suffix h1) (newScan_sub rest sep h)

theorem dottedRun_snd_suffix : ∀ l : List Char, (dottedRun l).2 <:+ l
  | [] => List.suffix_refl _
  | c :: rest => by
    cases rest with
    | nil =>
      have key : dottedRun [c]
          = if identChar c then ([c], ([] : List Char))
            else if c == '.' then ([], [c]) else ([], [c]) := rfl
      rw [key]
      split_ifs
      · show ([] : List Char) <:+ [c]
        exact List.nil_suffix
      · exact List.suffix_refl _
      · exact List.suffix_refl _
    | cons d rest2 =>
      have key : dottedRun (c :: d :: rest2)
          = if identChar c then
              (c :: (dottedRun (d :: rest2)).1, (dottedRun (d :: rest2)).2)
            else if c == '.' then
              (if identStart d then
                ('.' :: d :: (dottedRun rest2).1, (dottedRun rest2).2)
               else ([], c :: d :: rest2))
            else ([], c :: d :: rest2) := rfl
      rw [key]
      split_ifs
      · show (dottedRun (d :: rest2)).2 <:+ c :: d :: rest2
        exact (dottedRun_snd_suffix (d :: rest2)).trans (List.suffix_cons c _)
      · show (dottedRun rest2).2 <:+ c :: d :: rest2
        exact ((dottedRun_snd_suffix rest2).trans (List.suffix_cons d rest2)).trans
          (List.suffix_cons c (d :: rest2))
      · exact List.suffix_refl _
      · exact List.suffix_refl _

theorem parseDotted_snd_suffix {x cap r : List Char}
    (h : parseDotted x = some (cap, r)) : r <:+ x := by
  cases x with
  | nil => exact Option.noConfusion h
  | cons c rest =>
    simp only [parseDotted] at h
    split_ifs at h
    injection h with h2
    injection h2 with ha hb
    subst hb
    exact (dottedRun_snd_suffix rest).trans (List.suffix_cons c rest)

theorem funcCallCapAt_paren {cs cap : List Char}
    (h : funcCallCapAt cs = some cap) : '(' ∈ cs := by
  simp only [funcCallCapAt] at h
  split at h
  · rename_i sep rest heq1
    split at h
    · rename_i cap2 r heq2
      split at h
      · rename_i r3 heq3
        have hmem : '(' ∈ r.dropWhile jsWS := by
          rw [heq3]; exact List.mem_cons_self _ _
        have hchain : r.dropWhile jsWS <:+ cs :=
          ((dropWhile_suffix _ _).trans ((parseDotted_snd_suffix heq2).trans
            ((dropWhile_suffix _ _).trans (eatConstHeadAny_some_suffix heq1))))
        exact mem_of_suffix hchain hmem
      · exact Option.noConfusion h
    · exact Option.noConfusion h
  · exact Option.noConfusion h

theorem typeCallAt_dot {x : List Char} (h : typeCallAt x = true) : '.' ∈ x := by
  simp only [typeCallAt] at h
  cases h1 : eatLit "Type.".data x with
  | none => rw [h1] at h; exact Bool.noConfusion h
  | some r => exact eatLit_mem _ _ _ h1 '.' (by decide)

theorem zCallAt_dot {x : List Char} (h : zCallAt x = true) : '.' ∈ x := by
  simp only [zCallAt] at h
  cases h1 : eatLit "z.".data x with
  | none => rw [h1] at h; exact Bool.noConfusion h
  | some r => exact eatLit_mem _ _ _ h1 '.' (by decide)

theorem schemaLibTest_dot {l : List Char} (h : schemaLibTest l = true) :
    '.' ∈ l := by
  simp only [schemaLibTest] at h
  obtain ⟨s, hs, hf⟩ := scanSuffixes_true_imp h
  split at hf
  · rename_i r
    simp only [Bool.or_eq_true] at hf
    have hsub : List.dropWhile jsWS r <:+ '=' :: r :=
      (dropWhile_suffix _ _).trans (List.suffix_cons _ _)
    rcases hf with hf | hf
    · exact mem_of_suffix hs (mem_of_suffix hsub (typeCallAt_dot hf))
    · exact mem_of_suffix hs (mem_of_suffix hsub (zCallAt_dot hf))
  · exact Bool.noConfusion hf

theorem dotIdentAt_dot {s : List Char} (h : dotIdentAt s = true) : '.' ∈ s := by
  cases s with
  | nil => exact Bool.noConfusion h
  | cons c rest =>
    simp only [dotIdentAt, Bool.and_eq_true] at h
    have h2 := h.2
    split at h2
    · rename_i d t heq
      have hmem : '.' ∈ rest.dropWhile identChar := by
        rw [heq]; exact List.mem_cons_self _ _
      exact List.mem_cons_of_mem _ (mem_of_suffix (dropWhile_suffix _ _) hmem)
    · exact Bool.noConfusion h2

theorem callValueAt_paren {s : List Char} (h : callValueAt s = true) : '(' ∈ s := by
  cases s with
  | nil => exact Bool.noConfusion h
  | cons c0 r0 =>
    simp only [callValueAt] at h
    split at h
    · rename_i r heq
      injection heq with hc hr
      subst hc
      subst hr
      split at h
      · rename_i c rest heq2
        simp only [Bool.and_eq_true] at h
        have h2 := h.2
        split at h2
        · rename_i r3 heq3
          have hmem : '(' ∈ (rest.dropWhile identChar).dropWhile jsWS := by
            rw [heq3]; exact List.mem_cons_self _ _
          have hchain : (rest.dropWhile identChar).dropWhile jsWS <:+ r0.dropWhile jsWS := by
            refine ((dropWhile_suffix _ _).trans (dropWhile_suffix _ _)).trans ?_
            rw [heq2]
            exact List.suffix_cons _ _
          exact List.mem_cons_of_mem _
            (mem_of_suffix ((dropWhile_suffix _ _)) (mem_of_suffix hchain hmem))
        · exact Bool.noConfusion h2
      · exact Bool.noConfusion h
    · exact Bool.noConfusion h

theorem templateExprAt_tick {s : List Char} (h : templateExprAt s = true) :
    backtick ∈ s := by
  cases s with
  | nil => exact Bool.noConfusion h
  | cons c rest =>
    simp only [templateExprAt, Bool.and_eq_true, beq_iff_eq] at h
    rw [h.1]
    exact List.mem_cons_self _ _

/-! character-set facts for rendered scalar-object lines -/

theorem validWord_mem {k : String} (h : validWord k = true) :
    ∀ c ∈ k.data, wordChar c = true := by
  intro c hc
  rcases hd : k.data with _ | ⟨a, t⟩
  · rw [hd] at hc; cases hc
  · rw [hd] at hc
    have h2 : wordChar a = true ∧ t.all wordChar = true := by
      simpa [validWord, hd, Bool.and_eq_true] using h
    rcases List.mem_cons.mp hc with rfl | hc2
    · exact h2.1
    · exact List.all_eq_true.mp h2.2 c hc2

theorem renderScalar_chars {v : ScalarLit} (hv : scalarWF v = true) :
    ∀ c ∈ renderScalar v, c = '\x27' ∨ strOkChar c = true ∨ c.isDigit = true := by
  cases v with
  | num ds =>
    intro c hc
    simp only [scalarWF, Bool.and_eq_true] at hv
    exact Or.inr (Or.inr (List.all_eq_true.mp hv.2 c hc))
  | str cs =>
    intro c hc
    simp only [renderScalar] at hc
    rcases List.mem_cons.mp hc with rfl | hc2
    · exact Or.inl rfl
    · rcases List.mem_append.mp hc2 with h3 | h3
      · simp only [scalarWF] at hv
        exact Or.inr (Or.inl (List.all_eq_true.mp hv c h3))
      · simp only [List.mem_singleton] at h3
        subst h3
        exact Or.inl rfl

def c5StructChars : List Char :=
  ['e', 'x', 'p', 'o', 'r', 't', ' ', 'c', 'o', 'n', 's', 't', '=', '\x7b',
    '\x7d', ';', ':', ',', '\x27']

theorem renderEntries_chars : ∀ (es : List (String × ScalarLit)),
    es.all entryWF = true →
    ∀ c ∈ renderEntries es,
      wordChar c = true ∨ strOkChar c = true ∨ c.isDigit = true
        ∨ c ∈ c5StructChars := by
  intro es
  induction es with
  | nil =>
    intro _ c hc
    simp only [renderEntries] at hc
    cases hc
  | cons kv rest ih =>
    intro hwf c hc
    obtain ⟨k, v⟩ := kv
    simp only [List.all_cons, Bool.and_eq_true] at hwf
    have hkv : validWord k = true ∧ scalarWF v = true := by
      have := hwf.1
      simpa [entryWF, Bool.and_eq_true] using this
    have hscalar : ∀ c ∈ renderScalar v,
        wordChar c = true ∨ strOkChar c = true ∨ c.isDigit = true
          ∨ c ∈ c5StructChars := by
      intro c2 hc2
      rcases renderScalar_chars hkv.2 c2 hc2 with h4 | h4 | h4
      · subst h4; right; right; right; decide
      · exact Or.inr (Or.inl h4)
      · exact Or.inr (Or.inr (Or.inl h4))
    cases rest with
    | nil =>
      simp only [renderEntries] at hc
      rcases List.mem_append.mp hc with h1 | h1
      · exact Or.inl (validWord_mem hkv.1 c h1)
      · rcases List.mem_cons.mp h1 with rfl | h2
        · right; right; right; decide
        · rcases List.mem_cons.mp h2 with rfl | h3
          · right; right; right; decide
          · exact hscalar c h3
    | cons e2 rest2 =>
      simp only [renderEntries] at hc
      rcases List.mem_append.mp hc with h1 | h1
      · exact Or.inl (validWord_mem hkv.1 c h1)
      · rcases List.mem_cons.mp h1 with rfl | h2
        · right; right; right; decide
        · rcases List.mem_cons.mp h2 with rfl | h3
          · right; right; right; decide
          · rcases List.mem_append.mp h3 with h4 | h4
            · exact hscalar c h4
            · rcases List.mem_cons.mp h4 with rfl | h5
              · right; right; right; decide
              · rcases List.mem_cons.mp h5 with rfl | h6
                · right; right; right; decide
                · exact ih hwf.2 c h6

theorem renderObjLine_decomp (name : String) (es : List (String × ScalarLit)) :
    renderObjLine name es =
      ("export const ".data ++ name.data ++ [' ', '=', ' ', '\x7b', ' '])
        ++ (renderEntries es ++ [' ', '\x7d', ';']) := by
  simp [renderObjLine]

theorem renderObjLine_chars (name : String) (es : List (String × ScalarLit))
    (hname : validWord name = true) (hwf : es.all entryWF = true) :
    ∀ c ∈ renderObjLine name es,
      wordChar c = true ∨ strOkChar c = true ∨ c.isDigit = true
        ∨ c ∈ c5StructChars := by
  intro c hc
  rw [renderObjLine_decomp] at hc
  rcases List.mem_append.mp hc with h1 | h1
  · rcases List.mem_append.mp h1 with h2 | h2
    · rcases List.mem_append.mp h2 with h3 | h3
      · right; right; right
        exact (by decide :
          ∀ x ∈ ("export const ".data : List Char), x ∈ c5StructChars) c h3
      · exact Or.inl (validWord_mem hname c h3)
    · right; right; right
      exact (by decide :
        ∀ x ∈ ([' ', '=', ' ', '\x7b', ' '] : List Char), x ∈ c5StructChars) c h2
  · rcases List.mem_append.mp h1 with h2 | h2
    · exact renderEntries_chars es hwf c h2
    · right; right; right
      exact (by decide :
        ∀ x ∈ ([' ', '\x7d', ';'] : List Char), x ∈ c5StructChars) c h2

theorem c5_char_absent (name : String) (es : List (String × ScalarLit))
    (hname : validWord name = true) (hwf : es.all entryWF = true) {c : Char}
    (h1 : wordChar c = false) (h2 : strOkChar c = false)
    (h3 : c.isDigit = false) (h4 : c ∉ c5StructChars) :
    c ∉ renderObjLine name es := by
  intro hc
  rcases renderObjLine_chars name es hname hwf c hc with h | h | h | h
  · rw [h1] at h; exact Bool.noConfusion h
  · rw [h2] at h; exact Bool.noConfusion h
  · rw [h3] at h; exact Bool.noConfusion h
  · exact h4 h

/-! colon positions -/

theorem head_mem_of_head? {t : List Char} {c : Char} (h : t.head? = some c) :
    c ∈ t := by
  cases t with
  | nil => cases h
  | cons a t2 =>
    simp only [List.head?_cons, Option.some.injEq] at h
    subst h
    exact List.mem_cons_self _ _

theorem entries_colon_suffix : ∀ (es : List (String × ScalarLit)),
    es.all entryWF = true →
    ∀ t, t <:+ renderEntries es → t.head? = some ':' →
      ∃ v r2, scalarWF v = true ∧ t = ':' :: ' ' :: (renderScalar v ++ r2) := by
  intro es
  induction es with
  | nil =>
    intro _ t ht hh
    have ht2 : t = [] := List.suffix_nil.mp (by simpa [renderEntries] using ht)
    subst ht2
    exact Option.noConfusion hh
  | cons kv rest ih =>
    intro hwf t ht hh
    obtain ⟨k, v⟩ := kv
    simp only [List.all_cons, Bool.and_eq_true] at hwf
    have hkv : validWord k = true ∧ scalarWF v = true := by
      have := hwf.1
      simpa [entryWF, Bool.and_eq_true] using this
    have hscalarColon : ':' ∉ renderScalar v := by
      intro hmem
      rcases renderScalar_chars hkv.2 ':' hmem with h4 | h4 | h4 <;>
        exact absurd h4 (by decide)
    cases rest with
    | nil =>
      simp only [renderEntries] at ht
      rcases suffix_append_cases ht with h1 | ⟨u, hu1, hu2, hu3⟩
      · rcases List.suffix_cons_iff.mp h1 with rfl | h2
        · exact ⟨v, [], hkv.2, by simp⟩
        · exfalso
          rcases List.suffix_cons_iff.mp h2 with rfl | h3
          · simp at hh
          · exact hscalarColon (mem_of_suffix h3 (head_mem_of_head? hh))
      · exfalso
        cases u with
        | nil => exact hu2 rfl
        | cons a u2 =>
          rw [hu3] at hh
          simp only [List.cons_append, List.head?_cons, Option.some.injEq] at hh
          subst hh
          have : ':' ∈ k.data := mem_of_suffix hu1 (List.mem_cons_self _ _)
          exact absurd (validWord_mem hkv.1 ':' this) (by decide)
    | cons e2 rest2 =>
      simp only [renderEntries] at ht
      rcases suffix_append_cases ht with h1 | ⟨u, hu1, hu2, hu3⟩
      · rcases List.suffix_cons_iff.mp h1 with rfl | h2
        · exact ⟨v, ',' :: ' ' :: renderEntries (e2 :: rest2), hkv.2, by simp⟩
        · rcases List.suffix_cons_iff.mp h2 with rfl | h3
          · simp at hh
          · rcases suffix_append_cases h3 with h4 | ⟨w, hw1, hw2, hw3⟩
            · rcases List.suffix_cons_iff.mp h4 with rfl | h5
              · simp at hh
              · rcases List.suffix_cons_iff.mp h5 with rfl | h6
                · simp at hh
                · exact ih hwf.2 t h6 hh
            · exfalso
              cases w with
              | nil => exact hw2 rfl
              | cons a w2 =>
                rw [hw3] at hh
                simp only [List.cons_append, List.head?_cons,
                  Option.some.injEq] at hh
                subst hh
                exact hscalarColon (mem_of_suffix hw1 (List.mem_cons_self _ _))
      · exfalso
        cases u with
        | nil => exact hu2 rfl
        | cons a u2 =>
          rw [hu3] at hh
          simp only [List.cons_append, List.head?_cons, Option.some.injEq] at hh
          subst hh
          have : ':' ∈ k.data := mem_of_suffix hu1 (List.mem_cons_self _ _)
          exact absurd (validWord_mem hkv.1 ':' this) (by decide)

theorem line_colon_suffix (name : String) (es : List (String × ScalarLit))
    (hname : validWord name = true) (hwf : es.all entryWF = true)
    {s : List Char} (hs : s <:+ renderObjLine name es)
    (hh : s.head? = some ':') :
    ∃ v r2, scalarWF v = true ∧ s = ':' :: ' ' :: (renderScalar v ++ r2) := by
  rw [renderObjLine_decomp] at hs
  rcases suffix_append_cases hs with h1 | ⟨u, hu1, hu2, hu3⟩
  · rcases suffix_append_cases h1 with h2 | ⟨w, hw1, hw2, hw3⟩
    · exfalso
      have := mem_of_suffix h2 (head_mem_of_head? hh)
      exact absurd this (by decide)
    · have hwhead : w.head? = some ':' := by
        cases w with
        | nil => exact absurd rfl hw2
        | cons a w2 =>
          rw [hw3] at hh
          simpa using hh
      obtain ⟨v, r2, hv, hw⟩ := entries_colon_suffix es hwf w hw1 hwhead
      refine ⟨v, r2 ++ [' ', '\x7d', ';'], hv, ?_⟩
      rw [hw3, hw]
      simp [List.append_assoc]
  · exfalso
    cases u with
    | nil => exact hu2 rfl
    | cons a u2 =>
      rw [hu3] at hh
      simp only [List.cons_append, List.head?_cons, Option.some.injEq] at hh
      subst hh
      have hmem : ':' ∈ "export const ".data ++ name.data
          ++ [' ', '=', ' ', '\x7b', ' '] :=
        mem_of_suffix hu1 (List.mem_cons_self _ _)
      rcases List.mem_append.mp hmem with h3 | h3
      · rcases List.mem_append.mp h3 with h4 | h4
        · exact absurd h4 (by decide)
        · exact absurd (validWord_mem hname ':' h4) (by decide)
      · exact absurd h3 (by decide)

theorem not_upper_of_digit {c : Char} (h : c.isDigit = true) :
    c.isUpper = false := by
  cases hu : c.isUpper
  · rfl
  · exfalso
    simp only [Char.isUpper, Bool.and_eq_true, decide_eq_true_eq] at hu
    simp only [Char.isDigit, Bool.and_eq_true, decide_eq_true_eq] at h
    have h3 : ('A' : Char) ≤ ('9' : Char) := hu.1.trans h.2
    exact absurd h3 (by decide)

theorem not_ws_of_digit {c : Char} (h : c.isDigit = true) : jsWS c = false :=
  not_ws_of_wordChar (by simp [wordChar, h])

theorem upperConst_scan_false (name : String) (es : List (String × ScalarLit))
    (hname : validWord name = true) (hwf : es.all entryWF = true) :
    scanSuffixes upperConstValueAt (renderObjLine name es) = false := by
  cases hsc : scanSuffixes upperConstValueAt (renderObjLine name es)
  · rfl
  · exfalso
    obtain ⟨s, hs, hf⟩ := scanSuffixes_true_imp hsc
    rw [upperConstValueAt.eq_def] at hf
    split at hf
    · rename_i r
      obtain ⟨v, r2, hv, heq⟩ := line_colon_suffix name es hname hwf hs (by simp)
      injection heq with ha hr
      subst hr
      have hdrop : List.dropWhile jsWS (' ' :: (renderScalar v ++ r2))
          = renderScalar v ++ r2 := by
        rw [List.dropWhile_cons, if_pos (by decide : jsWS ' ' = true)]
        cases v with
        | num ds =>
          simp only [scalarWF, Bool.and_eq_true] at hv
          cases ds with
          | nil => simp at hv
          | cons d ds2 =>
            simp only [List.all_cons, Bool.and_eq_true] at hv
            show List.dropWhile jsWS ((d :: ds2) ++ r2) = (d :: ds2) ++ r2
            rw [List.cons_append]
            exact dropWhile_cons_false (not_ws_of_digit hv.2.1) _
        | str cs =>
          show List.dropWhile jsWS (('\x27' :: (cs ++ ['\x27'])) ++ r2)
              = ('\x27' :: (cs ++ ['\x27'])) ++ r2
          rw [List.cons_append]
          exact dropWhile_cons_false (by decide) _
      rw [hdrop] at hf
      cases v with
      | num ds =>
        simp only [scalarWF, Bool.and_eq_true] at hv
        cases ds with
        | nil => simp at hv
        | cons d ds2 =>
          simp only [List.all_cons, Bool.and_eq_true] at hv
          rw [show renderScalar (ScalarLit.num (d :: ds2)) = d :: ds2 from rfl,
            List.cons_append] at hf
          split at hf
          · rename_i c rest heq2
            injection heq2 with hc hrest
            subst hc
            simp only [Bool.and_eq_true] at hf
            rw [not_upper_of_digit hv.2.1] at hf
            exact Bool.noConfusion hf.1
          · exact Bool.noConfusion hf
      | str cs =>
        rw [show renderScalar (ScalarLit.str cs) = '\x27' :: (cs ++ ['\x27'])
          from rfl, List.cons_append] at hf
        split at hf
        · rename_i c rest heq2
          injection heq2 with hc hrest
          subst hc
          simp only [Bool.and_eq_true] at hf
          have : ('\x27').isUpper = false := by decide
          rw [this] at hf
          exact Bool.noConfusion hf.1
        · exact Bool.noConfusion hf
    · exact Bool.noConfusion hf

/-! trimming and brace-slice computations -/

theorem jsTrim_nontrivial {E : List Char} {e x : Char} {E2 xs : List Char}
    (hE : E = e :: E2) (he : jsWS e = false)
    (hrev : E.reverse = x :: xs) (hx : jsWS x = false) : jsTrim E = E := by
  subst hE
  rw [jsTrim, dropWhile_cons_false he, hrev, dropWhile_cons_false hx, ← hrev,
    List.reverse_reverse]

theorem jsTrim_pad {E : List Char} {e x : Char} {E2 xs : List Char}
    (hE : E = e :: E2) (he : jsWS e = false)
    (hrev : E.reverse = x :: xs) (hx : jsWS x = false) :
    jsTrim (' ' :: (E ++ [' '])) = E := by
  subst hE
  rw [jsTrim]
  have s1 : List.dropWhile jsWS (' ' :: ((e :: E2) ++ [' ']))
      = (e :: E2) ++ [' '] := by
    rw [List.dropWhile_cons, if_pos (by decide : jsWS ' ' = true),
      List.cons_append]
    exact dropWhile_cons_false he _
  rw [s1]
  have s2 : ((e :: E2) ++ [' ']).reverse = ' ' :: (x :: xs) := by
    rw [List.reverse_append, hrev]
    simp
  rw [s2, List.dropWhile_cons, if_pos (by decide : jsWS ' ' = true),
    dropWhile_cons_false hx, ← hrev, List.reverse_reverse]

theorem renderScalar_rev_head {v : ScalarLit} (hv : scalarWF v = true) :
    ∃ x xs, (renderScalar v).reverse = x :: xs ∧ jsWS x = false := by
  cases v with
  | num ds =>
    simp only [scalarWF, Bool.and_eq_true] at hv
    rcases hrev : ds.reverse with _ | ⟨x, xs⟩
    · exfalso
      have : ds = [] := by
        have := congrArg List.reverse hrev
        simpa using this
      rw [this] at hv
      simp at hv
    · refine ⟨x, xs, hrev, ?_⟩
      have hmem : x ∈ ds := by
        have : x ∈ ds.reverse := by rw [hrev]; exact List.mem_cons_self _ _
        simpa using this
      exact not_ws_of_digit (List.all_eq_true.mp hv.2 x hmem)
  | str cs =>
    refine ⟨'\x27', cs.reverse ++ ['\x27'], ?_, by decide⟩
    simp [renderScalar, List.reverse_append]

theorem renderEntries_rev_head : ∀ (es : List (String × ScalarLit)),
    es.all entryWF = true → es ≠ [] →
    ∃ x xs, (renderEntries es).reverse = x :: xs ∧ jsWS x = false := by
  intro es
  induction es with
  | nil => intro _ h; exact absurd rfl h
  | cons kv rest ih =>
    intro hwf _
    obtain ⟨k, v⟩ := kv
    simp only [List.all_cons, Bool.and_eq_true] at hwf
    have hkv : validWord k = true ∧ scalarWF v = true := by
      have := hwf.1
      simpa [entryWF, Bool.and_eq_true] using this
    cases rest with
    | nil =>
      obtain ⟨x, xs, hx, hxws⟩ := renderScalar_rev_head hkv.2
      refine ⟨x, xs ++ ([' ', ':'] ++ k.data.reverse), ?_, hxws⟩
      simp only [renderEntries]
      rw [List.reverse_append]
      simp [hx]
    | cons e2 rest2 =>
      obtain ⟨x, xs, hx, hxws⟩ := ih hwf.2 (by simp)
      refine ⟨x, xs ++ ([' ', ','] ++ ((renderScalar v).reverse
        ++ ([' ', ':'] ++ k.data.reverse))), ?_, hxws⟩
      simp only [renderEntries]
      rw [List.reverse_append]
      simp [List.reverse_append, hx]

theorem renderEntries_head : ∀ (es : List (String × ScalarLit)),
    es.all entryWF = true → es ≠ [] →
    ∃ e E2, renderEntries es = e :: E2 ∧ jsWS e = false := by
  intro es
  induction es with
  | nil => intro _ h; exact absurd rfl h
  | cons kv rest ih =>
    intro hwf _
    obtain ⟨k, v⟩ := kv
    simp only [List.all_cons, Bool.and_eq_true] at hwf
    have hkv : validWord k = true ∧ scalarWF v = true := by
      have := hwf.1
      simpa [entryWF, Bool.and_eq_true] using this
    rcases hkd : k.data with _ | ⟨c, t⟩
    · exfalso
      have := hkv.1
      simp [validWord, hkd] at this
    · have hc : wordChar c = true := validWord_mem hkv.1 c (by rw [hkd]; exact List.mem_cons_self _ _)
      cases rest with
      | nil =>
        refine ⟨c, t ++ (':' :: ' ' :: renderScalar v), ?_, not_ws_of_wordChar hc⟩
        simp only [renderEntries]
        rw [hkd, List.cons_append]
      | cons e2 rest2 =>
        refine ⟨c, t ++ (':' :: ' ' :: (renderScalar v
          ++ (',' :: ' ' :: renderEntries (e2 :: rest2)))), ?_, not_ws_of_wordChar hc⟩
        simp only [renderEntries]
        rw [hkd, List.cons_append]

theorem wordChar_ne {c d : Char} (h : wordChar c = true) (hd : wordChar d = false) :
    (c != d) = true := by
  simp only [bne_iff_ne]
  intro he
  subst he
  rw [h] at hd
  exact Bool.noConfusion hd

theorem c5_slice (name : String) (es : List (String × ScalarLit))
    (hname : validWord name = true) :
    sliceBetweenBraces (renderObjLine name es)
      = some (' ' :: (renderEntries es ++ [' '])) := by
  have hA0 : ("export const ".data ++ name.data ++ " = ".data).all
      (fun c => c != '\x7b') = true := by
    simp only [List.all_append, Bool.and_eq_true]
    refine ⟨⟨by decide, ?_⟩, by decide⟩
    rw [List.all_eq_true]
    intro c hc
    exact wordChar_ne (validWord_mem hname c hc) (by decide)
  have hsplit : renderObjLine name es
      = ("export const ".data ++ name.data ++ " = ".data)
        ++ ('\x7b' :: (' ' :: (renderEntries es ++ [' ', '\x7d', ';']))) := by
    simp [renderObjLine]
  have s1 : (renderObjLine name es).dropWhile (fun c => c != '\x7b')
      = '\x7b' :: (' ' :: (renderEntries es ++ [' ', '\x7d', ';'])) := by
    rw [hsplit, dropWhile_append_all _ hA0]
    exact dropWhile_cons_false (by decide) _
  have hmid : (' ' :: (renderEntries es ++ [' ', '\x7d', ';']))
      = (' ' :: (renderEntries es ++ [' '])) ++ ['\x7d', ';'] := by
    simp
  have s2 : (' ' :: (renderEntries es ++ [' ', '\x7d', ';'])).reverse.dropWhile
        (fun c => c != '\x7d')
      = '\x7d' :: (' ' :: (renderEntries es ++ [' '])).reverse := by
    rw [hmid, List.reverse_append]
    show List.dropWhile (fun c => c != '\x7d')
        (';' :: ('\x7d' :: (' ' :: (renderEntries es ++ [' '])).reverse)) = _
    rw [List.dropWhile_cons, if_pos (by decide : ((';' : Char) != '\x7d') = true)]
    exact dropWhile_cons_false (by decide) _
  simp only [sliceBetweenBraces, s1, s2, List.reverse_reverse]

theorem numberValueAt_digit {d : Char} (hd : d.isDigit = true)
    (rest r : List Char) (hr : List.dropWhile jsWS r = d :: rest) :
    numberValueAt (':' :: r) = true := by
  rw [numberValueAt.eq_def]
  simp only []
  rw [hr]
  split
  · rename_i d2 t2 heq
    injection heq with h1 h2
    subst h1
    exact absurd hd (by decide)
  · rename_i d2 t2 heq
    injection heq with h1 h2
    subst h1
    exact hd
  · rename_i heq
    exact absurd heq (by simp)

theorem renderEntries_num_suffix : ∀ (es : List (String × ScalarLit)) (k : String)
    (ds : List Char), (k, ScalarLit.num ds) ∈ es →
    ∃ r2, (':' :: ' ' :: (ds ++ r2)) <:+ renderEntries es ∨
      (':' :: ' ' :: ds) <:+ renderEntries es := by
  intro es
  induction es with
  | nil => intro k ds h; cases h
  | cons kv rest ih =>
    intro k ds hmem
    rcases List.mem_cons.mp hmem with rfl | h2
    · cases rest with
      | nil =>
        refine ⟨[], Or.inr ?_⟩
        simp only [renderEntries]
        exact ⟨k.data, rfl⟩
      | cons e2 rest2 =>
        refine ⟨',' :: ' ' :: renderEntries (e2 :: rest2), Or.inl ?_⟩
        simp only [renderEntries]
        exact ⟨k.data, by simp [renderScalar]⟩
    · obtain ⟨kv1, kv2⟩ := kv
      obtain ⟨r2, hsuf⟩ := ih k ds h2
      cases rest with
      | nil => cases h2
      | cons e2 rest2 =>
        refine ⟨r2, ?_⟩
        have hsub : renderEntries (e2 :: rest2)
            <:+ renderEntries ((kv1, kv2) :: e2 :: rest2) := by
          simp only [renderEntries]
          exact ⟨kv1.data ++ (':' :: ' ' :: (renderScalar kv2 ++ [',', ' '])), by simp⟩
        rcases hsuf with h3 | h3
        · exact Or.inl (h3.trans hsub)
        · exact Or.inr (h3.trans hsub)

theorem renderScalar_str_quote_mem (cs : List Char) :
    '\x27' ∈ renderScalar (ScalarLit.str cs) := by
  simp [renderScalar]

theorem renderEntries_scalar_mem : ∀ (es : List (String × ScalarLit)) (k : String)
    (v : ScalarLit), (k, v) ∈ es → ∀ c ∈ renderScalar v, c ∈ renderEntries es := by
  intro es
  induction es with
  | nil => intro k v h; cases h
  | cons kv rest ih =>
    intro k v hmem c hc
    rcases List.mem_cons.mp hmem with rfl | h2
    · cases rest with
      | nil =>
        simp only [renderEntries]
        exact List.mem_append.mpr (Or.inr (List.mem_cons_of_mem _
          (List.mem_cons_of_mem _ hc)))
      | cons e2 rest2 =>
        simp only [renderEntries]
        exact List.mem_append.mpr (Or.inr (List.mem_cons_of_mem _
          (List.mem_cons_of_mem _ (List.mem_append.mpr (Or.inl hc)))))
    · obtain ⟨kv1, kv2⟩ := kv
      cases rest with
      | nil => cases h2
      | cons e2 rest2 =>
        have := ih k v h2 c hc
        simp only [renderEntries]
        exact List.mem_append.mpr (Or.inr (List.mem_cons_of_mem _
          (List.mem_cons_of_mem _ (List.mem_append.mpr (Or.inr
            (List.mem_cons_of_mem _ (List.mem_cons_of_mem _ this)))))))

theorem identOnly_false (name : String) (es : List (String × ScalarLit))
    (hname : validWord name = true) (hall : es.all entryWF = true)
    (hne : es ≠ []) :
    isObjectWithIdentifierOnlyValues (renderObjLine name es) = false := by
  obtain ⟨e, E2, hE, he⟩ := renderEntries_head es hall hne
  obtain ⟨x, xs, hrev, hx⟩ := renderEntries_rev_head es hall hne
  have htrim : jsTrim (' ' :: (renderEntries es ++ [' '])) = renderEntries es :=
    jsTrim_pad hE he hrev hx
  simp only [isObjectWithIdentifierOnlyValues, c5_slice name es hname, htrim]
  rw [if_neg (by rw [hE]; simp)]
  cases hq : (renderEntries es).any (fun c => c == '\x27' || c == '"') with
  | true => rfl
  | false =>
    rw [if_neg Bool.false_ne_true]
    have hnum : scanSuffixes numberValueAt (renderEntries es) = true := by
      rcases hes : es with _ | ⟨⟨k0, v0⟩, rest0⟩
      · exact absurd hes hne
      · cases v0 with
        | str cs =>
          exfalso
          have hqm : '\x27' ∈ renderEntries es := by
            rw [hes]
            exact renderEntries_scalar_mem _ k0 (ScalarLit.str cs)
              (List.mem_cons_self _ _) '\x27' (renderScalar_str_quote_mem cs)
          have hq2 : (renderEntries es).any (fun c => c == '\x27' || c == '"') = true :=
            List.any_eq_true.mpr ⟨'\x27', hqm, by decide⟩
          rw [hq] at hq2
          exact Bool.noConfusion hq2
        | num ds =>
          have h0 : entryWF (k0, ScalarLit.num ds) = true := by
            rw [hes] at hall
            simp only [List.all_cons, Bool.and_eq_true] at hall
            exact hall.1
          have hdsWF : validWord k0 = true ∧ (!ds.isEmpty) = true
              ∧ ds.all Char.isDigit = true := by
            simp only [entryWF, scalarWF, Bool.and_eq_true] at h0
            exact ⟨h0.1, h0.2.1, h0.2.2⟩
          cases hds : ds with
          | nil =>
            rw [hds] at hdsWF
            simp at hdsWF
          | cons d ds2 =>
            have hd : d.isDigit = true := by
              have h4 := hdsWF.2.2
              rw [hds] at h4
              simp only [List.all_cons, Bool.and_eq_true] at h4
              exact h4.1
            obtain ⟨r2, hsuf⟩ := renderEntries_num_suffix
              ((k0, ScalarLit.num (d :: ds2)) :: rest0) k0 (d :: ds2)
              (List.mem_cons_self _ _)
            rcases hsuf with h3 | h3
            · refine scanSuffixes_of_suffix_hit h3 ?_
              refine numberValueAt_digit hd (ds2 ++ r2) (' ' :: ((d :: ds2) ++ r2)) ?_
              rw [List.dropWhile_cons, if_pos (by decide : jsWS ' ' = true),
                List.cons_append]
              exact dropWhile_cons_false (not_ws_of_digit hd) _
            · refine scanSuffixes_of_suffix_hit h3 ?_
              refine numberValueAt_digit hd ds2 (' ' :: (d :: ds2)) ?_
              rw [List.dropWhile_cons, if_pos (by decide : jsWS ' ' = true)]
              exact dropWhile_cons_false (not_ws_of_digit hd) _
    rw [if_pos hnum]

/-! per-classifier refutations on the rendered scalar-object line -/

theorem c5_functional_false (name : String) (es : List (String × ScalarLit))
    (hname : validWord name = true) (hwf : es.all entryWF = true)
    (hfn : hasSubChars (renderObjLine name es)
      ['f', 'u', 'n', 'c', 't', 'i', 'o', 'n'] = false)
    (hcl : hasSubChars (renderObjLine name es) ['c', 'l', 'a', 's', 's'] = false) :
    isConstExportFunctional (renderObjLine name es) [] = false := by
  have hgt : '>' ∉ renderObjLine name es :=
    c5_char_absent name es hname hwf (by decide) (by decide) (by decide) (by decide)
  have hparen : '(' ∉ renderObjLine name es :=
    c5_char_absent name es hname hwf (by decide) (by decide) (by decide) (by decide)
  have h1 : scanSuffixes funcArrowAt (renderObjLine name es) = false := by
    cases hx : scanSuffixes funcArrowAt (renderObjLine name es) with
    | false => rfl
    | true =>
      obtain ⟨s, hs, hf⟩ := scanSuffixes_true_imp hx
      exact absurd (mem_of_suffix hs (funcArrowAt_gt hf)) hgt
  have h2 : scanSuffixes funcFunctionAt (renderObjLine name es) = false := by
    cases hx : scanSuffixes funcFunctionAt (renderObjLine name es) with
    | false => rfl
    | true =>
      obtain ⟨s, hs, hf⟩ := scanSuffixes_true_imp hx
      rw [hasSub_mono_suffix hs (funcFunctionAt_sub hf)] at hfn
      exact Bool.noConfusion hfn
  have h3 : scanSuffixes funcClassAt (renderObjLine name es) = false := by
    cases hx : scanSuffixes funcClassAt (renderObjLine name es) with
    | false => rfl
    | true =>
      obtain ⟨s, hs, hf⟩ := scanSuffixes_true_imp hx
      rw [hasSub_mono_suffix hs (funcClassAt_sub hf)] at hcl
      exact Bool.noConfusion hcl
  have h4 : scanSuffixes funcAsyncArrowAt (renderObjLine name es) = false := by
    cases hx : scanSuffixes funcAsyncArrowAt (renderObjLine name es) with
    | false => rfl
    | true =>
      obtain ⟨s, hs, hf⟩ := scanSuffixes_true_imp hx
      exact absurd (mem_of_suffix hs (funcAsyncArrowAt_gt hf)) hgt
  have h5 : scanSuffixes multiLineParenAt (renderObjLine name es) = false := by
    cases hx : scanSuffixes multiLineParenAt (renderObjLine name es) with
    | false => rfl
    | true =>
      obtain ⟨s, hs, hf⟩ := scanSuffixes_true_imp hx
      exact absurd (mem_of_suffix hs (multiLineParenAt_paren hf)) hparen
  simp [isConstExportFunctional, h1, h2, h3, h4, h5]

theorem c5_schema_false (name : String) (es : List (String × ScalarLit))
    (hname : validWord name = true) (hwf : es.all entryWF = true) :
    isSchemaConstExport (renderObjLine name es) [] = false := by
  have hdot : '.' ∉ renderObjLine name es :=
    c5_char_absent name es hname hwf (by decide) (by decide) (by decide) (by decide)
  have hlib : schemaLibTest (renderObjLine name es) = false := by
    cases hx : schemaLibTest (renderObjLine name es) with
    | false => rfl
    | true => exact absurd (schemaLibTest_dot hx) hdot
  have hla : schemaLookahead 5 ([] : List (List Char)) = false := rfl
  simp only [isSchemaConstExport]
  rw [hlib, if_neg Bool.false_ne_true, hla]
  split <;> rfl

theorem c5_runtime_false (name : String) (es : List (String × ScalarLit))
    (hname : validWord name = true) (hwf : es.all entryWF = true) (hne : es ≠ [])
    (hnw : hasSubChars (renderObjLine name es) ['n', 'e', 'w'] = false) :
    isRuntimeConstExport (renderObjLine name es) [] = false := by
  have hdot : '.' ∉ renderObjLine name es :=
    c5_char_absent name es hname hwf (by decide) (by decide) (by decide) (by decide)
  have hparen : '(' ∉ renderObjLine name es :=
    c5_char_absent name es hname hwf (by decide) (by decide) (by decide) (by decide)
  have htick : backtick ∉ renderObjLine name es :=
    c5_char_absent name es hname hwf (by decide) (by decide) (by decide) (by decide)
  have h1 : scanSuffixes newExprAt (renderObjLine name es) = false := by
    cases hx : scanSuffixes newExprAt (renderObjLine name es) with
    | false => rfl
    | true =>
      obtain ⟨s, hs, hf⟩ := scanSuffixes_true_imp hx
      rw [hasSub_mono_suffix hs (newExprAt_sub hf)] at hnw
      exact Bool.noConfusion hnw
  have h2 : funcCallCapture (renderObjLine name es) = none := by
    refine scanSuffixesFirst_none ?_
    intro s hs
    cases hx : funcCallCapAt s with
    | none => rfl
    | some cap => exact absurd (mem_of_suffix hs (funcCallCapAt_paren hx)) hparen
  have hgc : gatherContent (renderObjLine name es) [] = renderObjLine name es := rfl
  have h3 : scanSuffixes dotIdentAt (renderObjLine name es) = false := by
    cases hx : scanSuffixes dotIdentAt (renderObjLine name es) with
    | false => rfl
    | true =>
      obtain ⟨s, hs, hf⟩ := scanSuffixes_true_imp hx
      exact absurd (mem_of_suffix hs (dotIdentAt_dot hf)) hdot
  have h4 : scanSuffixes upperConstValueAt (renderObjLine name es) = false :=
    upperConst_scan_false name es hname hwf
  have h5 : scanSuffixes callValueAt (renderObjLine name es) = false := by
    cases hx : scanSuffixes callValueAt (renderObjLine name es) with
    | false => rfl
    | true =>
      obtain ⟨s, hs, hf⟩ := scanSuffixes_true_imp hx
      exact absurd (mem_of_suffix hs (callValueAt_paren hf)) hparen
  have h6 : scanSuffixes templateExprAt (renderObjLine name es) = false := by
    cases hx : scanSuffixes templateExprAt (renderObjLine name es) with
    | false => rfl
    | true =>
      obtain ⟨s, hs, hf⟩ := scanSuffixes_true_imp hx
      exact absurd (mem_of_suffix hs (templateExprAt_tick hf)) htick
  have h7 : hasSubChars (renderObjLine name es) "...".data = false := by
    cases hx : hasSubChars (renderObjLine name es) "...".data with
    | false => rfl
    | true => exact absurd (hasSub_head_mem _ '.' _ hx) hdot
  have h8 : isObjectWithIdentifierOnlyValues (renderObjLine name es) = false :=
    identOnly_false name es hname hwf hne
  have h9 : multilineValueScan 3 ([] : List (List Char)) = false := rfl
  simp only [isRuntimeConstExport, h1, hgc, h2, h3, h4, h5, h6, h7, h8, h9,
    Bool.false_eq_true, if_false, Bool.false_and, Bool.and_false, Bool.false_or,
    Bool.or_false, Bool.or_self, ite_self]

theorem c5_comment_false (name : String) (es : List (String × ScalarLit))
    (hname : validWord name = true) (hwf : es.all entryWF = true) :
    isCommentOrWhitespaceL (renderObjLine name es) = false := by
  have hcons : renderObjLine name es
      = 'e' :: ("xport const ".data ++ (name.data ++ (" = ".data
        ++ ('\x7b' :: ' ' :: (renderEntries es ++ [' ', '\x7d', ';']))))) := by
    simp [renderObjLine]
  have hrev : (renderObjLine name es).reverse
      = ';' :: ('\x7d' :: ' ' :: ((renderEntries es).reverse
        ++ (("export const ".data ++ name.data
          ++ [' ', '=', ' ', '\x7b', ' ']).reverse))) := by
    rw [renderObjLine_decomp]
    simp [List.reverse_append]
  have htrim : jsTrim (renderObjLine name es) = renderObjLine name es :=
    jsTrim_nontrivial hcons (by decide) hrev (by decide)
  have h5 : endsWithChars (renderObjLine name es) "*/".data = false := by
    simp only [endsWithChars]
    rw [hrev]
    rfl
  simp only [isCommentOrWhitespaceL, htrim, h5, Bool.or_false]
  rw [hcons]
  rfl

theorem c5_ignore_false (name : String) (es : List (String × ScalarLit))
    (hname : validWord name = true) (hwf : es.all entryWF = true) :
    hasIgnoreFlagL (renderObjLine name es) [] = false := by
  have hslash : '/' ∉ renderObjLine name es :=
    c5_char_absent name es hname hwf (by decide) (by decide) (by decide) (by decide)
  have h1 : hasSubChars (renderObjLine name es) typeExportAllowedMarker = false := by
    cases hx : hasSubChars (renderObjLine name es) typeExportAllowedMarker with
    | false => rfl
    | true =>
      rw [show typeExportAllowedMarker
        = '/' :: "/ @type-export-allowed".data from rfl] at hx
      exact absurd (hasSub_head_mem _ '/' _ hx) hslash
  simp only [hasIgnoreFlagL, h1, Bool.false_or]
  rfl

theorem c5_constdecl_true (name : String) (es : List (String × ScalarLit))
    (hname : validWord name = true) :
    isConstExportDeclL (renderObjLine name es) = true := by
  have h13 : renderObjLine name es
      = ['e', 'x', 'p', 'o', 'r', 't', ' ', 'c', 'o', 'n', 's', 't', ' ']
        ++ (name.data ++ ([' ', '=', ' ']
          ++ ('\x7b' :: ' ' :: (renderEntries es ++ [' ', '\x7d', ';'])))) := by
    simp [renderObjLine]
  simp only [isConstExportDeclL, h13, render_dropWhile,
    eatConstHeadAny_render name hname, Option.isSome_some]

/-- C5 (amended): an exported const in a non-type-module file whose
initializer is a one-line brace-delimited object of scalar literals (string
or number values under word keys, with no function, class or new substring
in the rendered line) is not classified Functional, Schema or
RuntimeConstructed, so the scan of that file emits exactly one violation
for it, of severity MEDIUM and type Non-Functional Constant Export. -/
theorem C5_literal_constant (path name : String) (es : List (String × ScalarLit))
    (hname : validWord name = true) (hwf : entriesWF es = true)
    (hfn : hasSubChars (renderObjLine name es)
      ['f', 'u', 'n', 'c', 't', 'i', 'o', 'n'] = false)
    (hcl : hasSubChars (renderObjLine name es) ['c', 'l', 'a', 's', 's'] = false)
    (hnw : hasSubChars (renderObjLine name es) ['n', 'e', 'w'] = false)
    (hpath : isTypesFile path = false) :
    scanFileForTypeExports path [renderObjLine name es]
        = [constExportViolation path 0 (renderObjLine name es)]
      ∧ (constExportViolation path 0 (renderObjLine name es)).severity = "MEDIUM"
      ∧ (constExportViolation path 0 (renderObjLine name es)).type
          = "Non-Functional Constant Export" := by
  have hall : es.all entryWF = true := by
    simp only [entriesWF, Bool.and_eq_true] at hwf
    exact hwf.2
  have hne : es ≠ [] := by
    simp only [entriesWF, Bool.and_eq_true] at hwf
    intro h
    rw [h] at hwf
    simp at hwf
  have h13 : renderObjLine name es
      = ['e', 'x', 'p', 'o', 'r', 't', ' ', 'c', 'o', 'n', 's', 't', ' ']
        ++ (name.data ++ ([' ', '=', ' ']
          ++ ('\x7b' :: ' ' :: (renderEntries es ++ [' ', '\x7d', ';'])))) := by
    simp [renderObjLine]
  have n1 : isTypeReExportL (renderObjLine name es) = false := by
    rw [h13]; exact render_not_reexport _
  have n2 : hasTypeExportL (renderObjLine name es) = false := by
    rw [h13]; exact render_not_typeExport _
  have n3 : hasTypeExportInBracesL (renderObjLine name es) = false := by
    rw [h13]; exact render_not_braces _
  have hcomment := c5_comment_false name es hname hall
  have hignore := c5_ignore_false name es hname hall
  have hdecl := c5_constdecl_true name es hname
  have hfunc := c5_functional_false name es hname hall hfn hcl
  have hschema := c5_schema_false name es hname hall
  have hruntime := c5_runtime_false name es hname hall hne hnw
  have hmain : scanLineMain path (isTypesFile path) 0 [] (renderObjLine name es) []
      = some (constExportViolation path 0 (renderObjLine name es)) := by
    simp only [scanLineMain, hcomment, hignore, n1, n2, n3, hdecl, hpath,
      hfunc, hschema, hruntime, Bool.false_and, Bool.and_false, Bool.not_false,
      Bool.and_true, Bool.true_and, Bool.and_self, Bool.false_eq_true, if_false,
      if_true]
  have hdir : isInTypesDir path = false := by
    cases hx : isInTypesDir path with
    | false => rfl
    | true =>
      rw [isTypesFile_of_inTypesDir hx] at hpath
      exact Bool.noConfusion hpath
  refine ⟨?_, rfl, rfl⟩
  simp only [scanFileForTypeExports, hdir, Bool.false_eq_true, if_false,
    scanLinesGo, hmain, Option.toList_some, List.append_nil, List.nil_append]

/-- C5 witness: the line export const Config = \x7b apiKey: (quoted k),
timeout: 5000 \x7d; in values.ts yields exactly one violation, of severity
MEDIUM and type Non-Functional Constant Export. -/
theorem C5_witness :
    scanFileForTypeExports "values.ts" [renderObjLine "Config" c5Entries]
        = [constExportViolation "values.ts" 0 (renderObjLine "Config" c5Entries)]
      ∧ (constExportViolation "values.ts" 0
          (renderObjLine "Config" c5Entries)).severity = "MEDIUM"
      ∧ (constExportViolation "values.ts" 0
          (renderObjLine "Config" c5Entries)).type
          = "Non-Functional Constant Export" :=
  C5_literal_constant "values.ts" "Config" c5Entries (by decide) (by decide)
    (by decide) (by decide) (by decide) (by decide)


end CTE
